import Mathlib

/-!
Shallow embedding of the LuQY Pro parser
(`src/nomad_luqy_plugin/parsers/parser.py`) and proofs about it.

Text is modelled as `List Char`.  Python floats are modelled as exact
rationals together with explicit `nan` / `inf` values (`PyFloat`); the
numeric value of a parsed cell is the exact decimal it denotes, which is
faithful for everything the parser does with cell values (storage,
comparison against "no value", and the single ×100 unit conversion).
-/

set_option maxRecDepth 100000

namespace LuQY

/-- Characters treated as whitespace.  Models the whitespace notion used by
Python's `str.strip()` and the regex `\s` for the character set that can
occur in instrument files (the ASCII whitespace characters).  Exotic
Unicode whitespace is outside the model. -/
def pyIsSpace (c : Char) : Bool :=
  c = ' ' || c = '\t' || c = '\n' || c = '\r' || c = '\x0b' || c = '\x0c'

/-- Drop trailing whitespace (the right half of Python `str.strip()`). -/
def dropTrailingWS (s : List Char) : List Char :=
  (s.reverse.dropWhile pyIsSpace).reverse

/-- Python `str.strip()`. -/
def pyStrip (s : List Char) : List Char :=
  dropTrailingWS (s.dropWhile pyIsSpace)

/-- Python `str.lower()` (ASCII letters; the parser only compares the
result against the ASCII literal `'time'`). -/
def pyLower (s : List Char) : List Char :=
  s.map Char.toLower

/-- Python `line.split('\t')`: split at every tab, keeping empty pieces. -/
def splitTab : List Char → List (List Char)
  | [] => [[]]
  | c :: cs =>
    match splitTab cs with
    | [] => []
    | t :: ts => if c = '\t' then [] :: t :: ts else (c :: t) :: ts

mutual

/-- Python `re.split(r'\s+', s)`, main state: not currently inside a
whitespace run; `cur` holds the (reversed) pending token. -/
def reSplitWSGo (cur : List Char) : List Char → List (List Char)
  | [] => [cur.reverse]
  | c :: cs =>
    if pyIsSpace c then cur.reverse :: reSplitWSSkip cs else reSplitWSGo (c :: cur) cs

/-- Python `re.split(r'\s+', s)`, state: inside a whitespace run. -/
def reSplitWSSkip : List Char → List (List Char)
  | [] => [[]]
  | c :: cs => if pyIsSpace c then reSplitWSSkip cs else reSplitWSGo [c] cs

end

/-- Python `re.split(r'\s+', s)`. -/
def reSplitWS (s : List Char) : List (List Char) :=
  reSplitWSGo [] s

/-- Python `s.replace(',', '.')` (single-character replacement, hence a map). -/
def replComma (s : List Char) : List Char :=
  s.map fun c => if c = ',' then '.' else c

/-- A Python float value as the parser observes it. -/
inductive PyFloat where
  | num (q : ℚ)
  | nan
  | inf (neg : Bool)
deriving DecidableEq

/-- Numeric value of a digit run (the run is already known to be digits). -/
def digitsToNat (ds : List Char) : ℕ :=
  ds.foldl (fun a c => a * 10 + (c.toNat - 48)) 0

/-- Negation of an exact rational, written with `mkRat` so that it
evaluates by kernel reduction (the `Rat` field operations do not). -/
def ratNeg (q : ℚ) : ℚ :=
  mkRat (-q.num) q.den

/-- `q * 10^ex` for an exponent `ex : ℤ`, via `mkRat`. -/
def ratScale10 (q : ℚ) : ℤ → ℚ
  | Int.ofNat n => mkRat (q.num * (10 : ℤ) ^ n) q.den
  | Int.negSucc n => mkRat q.num (q.den * 10 ^ (n + 1))

/-- Mantissa of a Python float literal: `digits [. digits]` with at least
one digit present, e.g. `12`, `12.`, `12.5`, `.5`; the exact decimal value
it denotes. -/
def parseMantissa (s : List Char) : Option ℚ :=
  let intPart := s.takeWhile Char.isDigit
  let rest := s.dropWhile Char.isDigit
  match rest with
  | [] => if intPart = [] then none else some (mkRat (digitsToNat intPart) 1)
  | '.' :: frac =>
    if frac.all Char.isDigit && !(intPart = [] && frac = []) then
      some (mkRat (digitsToNat intPart * 10 ^ frac.length + digitsToNat frac)
        (10 ^ frac.length))
    else none
  | _ => none

/-- Exponent part after `e`/`E`: optional sign then nonempty digits. -/
def parseExpInt (s : List Char) : Option ℤ :=
  let (sgn, ds) : ℤ × List Char :=
    match s with
    | '+' :: r => (1, r)
    | '-' :: r => (-1, r)
    | r => (1, r)
  if ds ≠ [] && ds.all Char.isDigit then some (sgn * digitsToNat ds) else none

/-- Split a float literal at the first `e`/`E`. -/
def splitExp : List Char → List Char × Option (List Char)
  | [] => ([], none)
  | c :: cs =>
    if c = 'e' || c = 'E' then ([], some cs)
    else
      match splitExp cs with
      | (m, e) => (c :: m, e)

/-- Models Python `float(s)` on finite decimal literals, `nan` and
`inf`/`infinity` (any case, optional sign, surrounding whitespace),
yielding the exact decimal value the literal denotes (binary64 rounding is
abstracted away; the parser only stores values and multiplies one of them
by 100).  Digit-group underscores are outside the model. -/
def parsePyFloat (s : List Char) : Option PyFloat :=
  let s := pyStrip s
  let (neg, body) : Bool × List Char :=
    match s with
    | '+' :: r => (false, r)
    | '-' :: r => (true, r)
    | r => (false, r)
  let low := pyLower body
  if low = "nan".toList then some PyFloat.nan
  else if low = "inf".toList || low = "infinity".toList then some (PyFloat.inf neg)
  else
    match splitExp body with
    | (m, none) =>
      (parseMantissa m).map fun q => PyFloat.num (if neg then ratNeg q else q)
    | (m, some e) =>
      match parseMantissa m, parseExpInt e with
      | some q, some ex =>
        some (PyFloat.num (ratScale10 (if neg then ratNeg q else q) ex))
      | _, _ => none

/-- Python `v * 100.0` (the suns → mW/cm² conversion), via `mkRat`. -/
def pyMul100 : PyFloat → PyFloat
  | PyFloat.num q => PyFloat.num (mkRat (q.num * 100) q.den)
  | PyFloat.nan => PyFloat.nan
  | PyFloat.inf b => PyFloat.inf b

/-- Models `unicodedata.normalize('NFKC', ·)` character-wise, restricted to
the characters that occur in header labels: the superscript two `²`
compatibility-decomposes to the digit `2`, the no-break space to an
ordinary space; ASCII characters, `Â` (U+00C2, canonically composed) and
the replacement character `�` are NFKC-fixed.  On the strings reaching
`_canon_key` (header first cells) NFKC is exactly this character map. -/
def charNFKC (c : Char) : Char :=
  if c = '²' then '2' else if c = '\u00A0' then ' ' else c

/-- Python `s.replace(pat, rep)` with fuel (fuel ≥ length of the input
suffix still to scan; non-overlapping, left to right). -/
def replaceAllF (pat rep : List Char) : ℕ → List Char → List Char
  | _, [] => []
  | 0, s => s
  | fuel + 1, c :: cs =>
    if pat ≠ [] && pat.isPrefixOf (c :: cs) then
      rep ++ replaceAllF pat rep fuel (List.drop pat.length (c :: cs))
    else
      c :: replaceAllF pat rep fuel cs

/-- Python `s.replace(pat, rep)`. -/
def replaceAll (pat rep s : List Char) : List Char :=
  replaceAllF pat rep s.length s

mutual

/-- `re.sub(r'\s+', ' ', s)`, main state. -/
def collapseWS : List Char → List Char
  | [] => []
  | c :: cs =>
    if pyIsSpace c then ' ' :: collapseDrop cs else c :: collapseWS cs

/-- `re.sub(r'\s+', ' ', s)`, state: inside a whitespace run whose single
replacement space has already been emitted. -/
def collapseDrop : List Char → List Char
  | [] => []
  | c :: cs =>
    if pyIsSpace c then collapseDrop cs else c :: collapseWS cs

end

/-- `_canon_key` (parser.py lines 61–79): NFKC, NBSP→space, strip, the
chain of unit-spelling replacements, then whitespace-run collapsing. -/
def canonKey (s : List Char) : List Char :=
  let s := s.map charNFKC
  let s := replaceAll ['\u00A0'] [' '] s
  let s := pyStrip s
  let s := replaceAll "cmÂ²".toList "cm^2".toList s
  let s := replaceAll "cm²".toList "cm^2".toList s
  let s := replaceAll "cm�".toList "cm^2".toList s
  let s := replaceAll "cm**2".toList "cm^2".toList s
  let s := replaceAll "cm2".toList "cm^2".toList s
  let s := replaceAll "mA/cm2".toList "mA/cm^2".toList s
  let s := replaceAll "mA/cm²".toList "mA/cm^2".toList s
  collapseWS s

/-- The `text.replace('Â²', '²')` performed by `LuQYParser.parse` on the
decoded file text before any line is split (parser.py line 499). -/
def textPreReplace (s : List Char) : List Char :=
  replaceAll "Â²".toList "²".toList s

/-- `header_map_settings` (parser.py lines 34–47). -/
def headerMapSettings : List (List Char × List Char) :=
  [ ("Time".toList, "timestamp".toList),
    ("Laser intensity (mW/cm^2)".toList, "laser_intensity".toList),
    ("Laser intensity (suns)".toList, "laser_intensity".toList),
    ("Bias Voltage (V)".toList, "bias_voltage".toList),
    ("Bias voltage (V)".toList, "bias_voltage".toList),
    ("SMU current density (mA/cm^2)".toList, "smu_current_density".toList),
    ("Integration Time (ms)".toList, "integration_time".toList),
    ("Delay time (s)".toList, "delay_time".toList),
    ("EQE @ laser wavelength".toList, "eqe_at_laser".toList),
    ("Laser spot size (cm^2)".toList, "laser_spot_size".toList),
    ("Subcell area (cm^2)".toList, "subcell_area".toList),
    ("Subcell".toList, "subcell".toList) ]

/-- `header_map_result` (parser.py lines 49–58). -/
def headerMapResult : List (List Char × List Char) :=
  [ ("LuQY (%)".toList, "luqy".toList),
    ("QFLS (eV)".toList, "qfls".toList),
    ("QFLS LuQY (eV)".toList, "qfls".toList),
    ("QFLS HET (eV)".toList, "qfls_het".toList),
    ("QFLS Confidence".toList, "qfls_confidence".toList),
    ("QFLS confidence".toList, "qfls_confidence".toList),
    ("Bandgap (eV)".toList, "bandgap".toList),
    ("Jsc (mA/cm^2)".toList, "derived_jsc".toList) ]

/-- Dictionary lookup in a mapping table (`key in header_map` / `header_map[key]`). -/
def lookupKey (m : List (List Char × List Char)) (k : List Char) :
    Option (List Char) :=
  (m.find? fun p => p.1 == k).map fun p => p.2

/-- A stored setting value: categorical fields keep the raw string,
numeric fields the parsed float. -/
inductive SVal where
  | str (v : List Char)
  | flt (v : PyFloat)
deriving DecidableEq

/-- A per-measurement settings dictionary (`settings_vals_list[i]`). -/
def SDict : Type := List Char → Option SVal

/-- A per-measurement results dictionary (`result_vals_list[i]`). -/
def RDict : Type := List Char → Option PyFloat

def emptySD : SDict := fun _ => none

def emptyRD : RDict := fun _ => none

/-- Python `d[k] = v` on a dictionary. -/
def dinsert {α : Type} (k : List Char) (v : α) (d : List Char → Option α) :
    List Char → Option α :=
  fun k2 => if k2 = k then some v else d k2

/-- The time-row test applied to one header line (the body of the loop at
parser.py lines 111–145): returns the extracted time values when the line
is a time/identifier row. -/
def lineTimes (line : List Char) : Option (List (List Char)) :=
  let stripped := pyStrip line
  if stripped = [] then none
  else if line.contains '\t' then
    let parts := splitTab line
    let p0 := parts.headD []
    if 2 < parts.length ∧ (pyLower (pyStrip p0) = "time".toList ∨ p0.contains '/') then
      let values := if pyLower (pyStrip p0) = "time".toList then parts.tail else parts
      let v0 := values.headD []
      if v0.contains '/' ∧ ¬v0.contains ':' ∧ 1 < values.length then
        let datePre := pyStrip v0
        some (values.tail.map fun v =>
          let v := pyStrip v
          if v.contains '/' ∧ v.contains ':' then v else datePre ++ ' ' :: v)
      else
        some ((values.map pyStrip).filter fun v => v ≠ [])
    else if parts.length = 2 ∧ pyLower (pyStrip p0) = "time".toList then
      some [pyStrip (parts.getD 1 [])]
    else none
  else
    let partsWs := reSplitWS stripped
    if (partsWs.headD []).contains '/' then some [stripped] else none

/-- The time-row scan over the header lines: first line whose `lineTimes`
fires, with its index (`times`, `times_line_idx`). -/
def findTimesGo : ℕ → List (List Char) → Option (List (List Char) × ℕ)
  | _, [] => none
  | i, l :: ls =>
    match lineTimes l with
    | some ts => some (ts, i)
    | none => findTimesGo (i + 1) ls

/-- Per-measurement settings and results dictionaries being built. -/
structure HeaderState where
  sdicts : List SDict
  rdicts : List RDict

/-- Dispatch of one (canonical key, stripped cell) pair into measurement
slot `i` (the dictionary-update bodies at parser.py lines 169–197 and
199–226; both ranges run the same per-cell logic). -/
def applyKV (key valStr : List Char) (i : ℕ) (st : HeaderState) : HeaderState :=
  match lookupKey headerMapSettings key with
  | some target =>
    if target = "subcell".toList then
      let d := dinsert target (SVal.str valStr) (st.sdicts.getD i emptySD)
      { st with sdicts := st.sdicts.set i d }
    else
      match parsePyFloat (replComma valStr) with
      | some v =>
        let v := if key = "Laser intensity (suns)".toList then pyMul100 v else v
        let d := dinsert target (SVal.flt v) (st.sdicts.getD i emptySD)
        { st with sdicts := st.sdicts.set i d }
      | none => st
  | none =>
    match lookupKey headerMapResult key with
    | some target =>
      match parsePyFloat (replComma valStr) with
      | some v =>
        let d := dinsert target v (st.rdicts.getD i emptyRD)
        { st with rdicts := st.rdicts.set i d }
      | none => st
    | none => st

/-- Cell splitting shared by header and data rows: split on tabs when the
raw line has any, else on whitespace runs of the stripped line. -/
def partsOfLine (line : List Char) : List (List Char) :=
  if line.contains '\t' then splitTab line else reSplitWS (pyStrip line)

/-- Processing of one header line (parser.py lines 158–226). -/
def procLine (num : ℕ) (timesIdx : Option ℕ) (st : HeaderState)
    (il : ℕ × List Char) : HeaderState :=
  let idx := il.1
  let line := il.2
  if pyStrip line = [] ∨ some idx = timesIdx then st
  else
    let parts := partsOfLine line
    if parts.length < 2 then st
    else
      let key := canonKey (parts.headD [])
      let values := parts.tail
      if 1 < num ∧ num ≤ values.length then
        (List.range num).foldl
          (fun st i =>
            let valStr := if i < values.length then pyStrip (values.getD i []) else []
            applyKV key valStr i st)
          st
      else
        applyKV key (pyStrip (values.headD [])) 0 st

/-- Storage of the detected time strings as `timestamp` settings
(parser.py lines 228–230); runs after the header loop, so it overwrites
any previously stored `timestamp`. -/
def stampTimes (num : ℕ) (times : List (List Char)) (sdicts : List SDict) :
    List SDict :=
  (List.range num).foldl
    (fun sd i =>
      sd.set i (dinsert "timestamp".toList (SVal.str (times.getD i []))
        (sd.getD i emptySD)))
    sdicts

/-- The delimiter-row regex `re.match(r'^-[-\\s]*$', line.strip())`.  In
that raw string the doubled backslash makes the character class contain
`-`, `\` and the letter `s` (not whitespace): a dash followed by any mix
of dashes, backslashes and `s`. -/
def delimLine (line : List Char) : Bool :=
  match pyStrip line with
  | [] => false
  | c :: cs => c = '-' && cs.all fun d => d = '-' || d = '\\' || d = 's'

/-- Index of the first delimiter row; the line count when none exists
(parser.py lines 98–104). -/
def delimIdx : List (List Char) → ℕ
  | [] => 0
  | l :: ls => if delimLine l then 0 else delimIdx ls + 1

/-- The `while start_idx < len(lines) and not lines[start_idx].strip()`
loop, fuelled (the fuel `lines.length` bounds the iteration count). -/
def skipBlankF (lines : List (List Char)) : ℕ → ℕ → ℕ
  | 0, s => s
  | f + 1, s =>
    if s < lines.length ∧ pyStrip (lines.getD s []) = [] then
      skipBlankF lines f (s + 1)
    else s

/-- First data-row index: skip the delimiter, blank lines, then one
column-header row (parser.py lines 233–237). -/
def startIdx (lines : List (List Char)) : ℕ :=
  let s := skipBlankF lines lines.length (delimIdx lines + 1)
  if s < lines.length then s + 1 else s

/-- Accumulated spectral arrays. -/
structure SpecState where
  wls : List PyFloat
  lums : List (List PyFloat)
  raws : Option (List (List PyFloat))
  darks : Option (List (List PyFloat))
deriving DecidableEq

/-- One value cell: `float(values[i].replace(',', '.'))` with NaN on
failure.  Out-of-range indices also give NaN (the `IndexError` handler for
raw/dark cells; for flux cells the index is always in range for an
accepted row, so using one function for all three channels is faithful). -/
def parseCell (values : List (List Char)) (i : ℕ) : PyFloat :=
  match parsePyFloat (replComma (values.getD i [])) with
  | some v => v
  | none => PyFloat.nan

/-- The inner `for i in range(num_measurements)` loop of the spectral
section (parser.py lines 259–283), threading `idx_v`: per measurement it
consumes the flux cell, then a raw cell when `channels >= 2`, then a dark
cell when `channels >= 3`.  Returns the per-measurement flux, raw and dark
values of the row. -/
def rowVals (values : List (List Char)) (channels : ℕ) :
    ℕ → ℕ → List PyFloat × List PyFloat × List PyFloat
  | 0, _ => ([], [], [])
  | n + 1, iv =>
    let f := parseCell values iv
    if 3 ≤ channels then
      let r := rowVals values channels n (iv + 3)
      (f :: r.1, parseCell values (iv + 1) :: r.2.1, parseCell values (iv + 2) :: r.2.2)
    else if 2 ≤ channels then
      let r := rowVals values channels n (iv + 2)
      (f :: r.1, parseCell values (iv + 1) :: r.2.1, r.2.2)
    else
      let r := rowVals values channels n (iv + 1)
      (f :: r.1, r.2.1, r.2.2)

/-- Append one value to each per-measurement list. -/
def zipApp (ls : List (List PyFloat)) (xs : List PyFloat) : List (List PyFloat) :=
  List.zipWith (fun l x => l ++ [x]) ls xs

/-- `channels = max(1, len(values) // num_measurements)`. -/
def chanCount (values : List (List Char)) (num : ℕ) : ℕ :=
  max 1 (values.length / num)

/-- Processing of one line of the data block (parser.py lines 244–283).
`channels` is constant over the inner measurement loop, so the lazy
creation of `raw_lists` / `dark_lists` on the first measurement of a row
is equivalent to creating them up front for that row. -/
def specStep (num : ℕ) (st : SpecState) (line : List Char) : SpecState :=
  if pyStrip line = [] then st
  else
    let parts := partsOfLine line
    if parts.length < 1 + num then st
    else
      match parsePyFloat (replComma (parts.headD [])) with
      | none => st
      | some w =>
        let values := parts.tail
        let channels := chanCount values num
        let r := rowVals values channels num 0
        { wls := st.wls ++ [w]
          lums := zipApp st.lums r.1
          raws :=
            if 2 ≤ channels then
              some (zipApp (st.raws.getD (List.replicate num [])) r.2.1)
            else st.raws
          darks :=
            if 3 ≤ channels then
              some (zipApp (st.darks.getD (List.replicate num [])) r.2.2)
            else st.darks }

/-- The tuple returned by `parse_multi`. -/
structure ParseResult where
  sets : List SDict
  ress : List RDict
  wls : List PyFloat
  lums : List (List PyFloat)
  raws : Option (List (List PyFloat))
  darks : Option (List (List PyFloat))

/-- `num_measurements` as `parse_multi` derives it (lines 147–151): the
count of detected time values, 1 when no time row was found or its value
list is empty. -/
def numMeas (lines : List (List Char)) : ℕ :=
  match findTimesGo 0 (lines.take (delimIdx lines)) with
  | some (ts, _) => if ts = [] then 1 else ts.length
  | none => 1

/-- `parse_multi` (parser.py lines 82–301). -/
def parseMulti (lines : List (List Char)) : ParseResult :=
  let headerLines := lines.take (delimIdx lines)
  let tr := findTimesGo 0 headerLines
  let times := match tr with | some (ts, _) => ts | none => []
  let timesIdx : Option ℕ := match tr with | some (_, i) => some i | none => none
  let num := if times = [] then 1 else times.length
  let st0 : HeaderState := ⟨List.replicate num emptySD, List.replicate num emptyRD⟩
  let hs := headerLines.enum.foldl (procLine num timesIdx) st0
  let sds := if times = [] then hs.sdicts else stampTimes num times hs.sdicts
  let sp := (lines.drop (startIdx lines)).foldl (specStep num)
      ⟨[], List.replicate num [], none, none⟩
  ⟨sds, hs.rdicts, sp.wls, sp.lums, sp.raws, sp.darks⟩

/-! ### Derived views of `parse_multi`, used to state the claims -/

/-- The detected time values of a file (`times` after line 148). -/
def timesOf (lines : List (List Char)) : List (List Char) :=
  match findTimesGo 0 (lines.take (delimIdx lines)) with
  | some (ts, _) => ts
  | none => []

/-- The index of the detected time row (`times_line_idx`). -/
def timesIdxOf (lines : List (List Char)) : Option ℕ :=
  match findTimesGo 0 (lines.take (delimIdx lines)) with
  | some (_, i) => some i
  | none => none

/-- The header state after the header-line loop. -/
def headerStateOf (lines : List (List Char)) : HeaderState :=
  (lines.take (delimIdx lines)).enum.foldl
    (procLine (numMeas lines) (timesIdxOf lines))
    ⟨List.replicate (numMeas lines) emptySD, List.replicate (numMeas lines) emptyRD⟩

/-- The spectral state after the data-block loop. -/
def specOf (lines : List (List Char)) : SpecState :=
  (lines.drop (startIdx lines)).foldl (specStep (numMeas lines))
    ⟨[], List.replicate (numMeas lines) [], none, none⟩

/-- Whether a data-block line is accepted by `specStep`: non-blank, at
least `1 + num` cells, first cell parses as a float. -/
def rowOk (num : ℕ) (line : List Char) : Bool :=
  if pyStrip line = [] then false
  else if (partsOfLine line).length < 1 + num then false
  else
    match parsePyFloat (replComma ((partsOfLine line).headD [])) with
    | none => false
    | some _ => true

/-- The parsed wavelength of an accepted data row. -/
def rowWl (line : List Char) : PyFloat :=
  (parsePyFloat (replComma ((partsOfLine line).headD []))).getD PyFloat.nan

/-- The channel count of a data row. -/
def rowCh (num : ℕ) (line : List Char) : ℕ :=
  chanCount (partsOfLine line).tail num

/-- Cells consumed per measurement by the inner spectral loop. -/
def chStride (channels : ℕ) : ℕ :=
  if 3 ≤ channels then 3 else if 2 ≤ channels then 2 else 1

/-- The state produced by `specStep` on an accepted row (named so that
the fold invariants can be stated about its fields). -/
def specStepAcc (num : ℕ) (st : SpecState) (line : List Char) : SpecState :=
  ⟨st.wls ++ [rowWl line],
   zipApp st.lums (rowVals (partsOfLine line).tail (rowCh num line) num 0).1,
   (if 2 ≤ rowCh num line then
      some (zipApp (st.raws.getD (List.replicate num []))
        (rowVals (partsOfLine line).tail (rowCh num line) num 0).2.1)
    else st.raws),
   (if 3 ≤ rowCh num line then
      some (zipApp (st.darks.getD (List.replicate num []))
        (rowVals (partsOfLine line).tail (rowCh num line) num 0).2.2)
    else st.darks)⟩

/-- Invariant of a lazily created channel (`raw_lists` / `dark_lists`):
either absent with row count 0, or created (`k > 0` rows seen with that
channel) holding `num` lists of `k` values each. -/
def chansOk (num : ℕ) (o : Option (List (List PyFloat))) (k : ℕ) : Prop :=
  (o = none ∧ k = 0)
  ∨ ∃ rs, o = some rs ∧ rs.map List.length = List.replicate num k ∧ 0 < k

/-! ### Definitions following the spec's words, for comparison with the code -/

/-- Modelled from the spec (claim C1): the number of data rows whose first
cell parses as a number. -/
def specFirstCellCount (lines : List (List Char)) : ℕ :=
  (lines.drop (startIdx lines)).countP fun l =>
    !(pyStrip l).isEmpty
      && (parsePyFloat (replComma ((partsOfLine l).headD []))).isSome

/-- Modelled from the spec (claim C2): `num_measurements` as the spec
describes it — the count of non-empty values of the time row when one is
found, otherwise the maximum count of non-empty value cells over header
rows whose canonical first-cell key is a recognized setting or result
field, otherwise 1. -/
def specNumMeasurements (lines : List (List Char)) : ℕ :=
  let headerLines := lines.take (delimIdx lines)
  match findTimesGo 0 headerLines with
  | some (ts, _) => (ts.filter fun v => v ≠ []).length
  | none =>
    let counts := headerLines.filterMap fun line =>
      let parts := partsOfLine line
      if parts.length < 2 then none
      else
        let key := canonKey (parts.headD [])
        if (lookupKey headerMapSettings key).isSome
            || (lookupKey headerMapResult key).isSome then
          some ((parts.tail.map pyStrip).filter fun v => v ≠ []).length
        else none
    max 1 (counts.foldr max 0)

/-- Modelled from the spec (claim C5): a line whose trimmed content is one
or more dash characters and nothing else. -/
def specDashOnly (line : List Char) : Bool :=
  match pyStrip line with
  | [] => false
  | c :: cs => c = '-' && cs.all fun d => d = '-'

/-- Modelled from the spec (claim C5): index of the first dashes-only
line, or the line count when none exists. -/
def specBoundary : List (List Char) → ℕ
  | [] => 0
  | l :: ls => if specDashOnly l then 0 else specBoundary ls + 1

/-! ### Concrete inputs used by counterexamples and witnesses -/

/-- Lines of a file, given as Lean string literals. -/
def linesOf (l : List String) : List (List Char) :=
  l.map String.toList

/-- A header row `key<TAB>value`. -/
def mkRow (key v : List Char) : List Char :=
  key ++ '\t' :: v

def exC1 : List (List Char) :=
  linesOf ["-----", "hdr", "500", "501\t1", "502\t2\t3\t4"]

def exC2 : List (List Char) :=
  linesOf ["LuQY (%)\t1\t2\t3", "-----"]

def exC3 : List (List Char) :=
  linesOf ["Time\t10:00\t11:00", "-----", "W", "500\t1\t2\t3\t4", "501\t9"]

def exC4 : List (List Char) :=
  linesOf ["-----", "H", "500\t1\t2"]

def exC4w : List (List Char) :=
  linesOf ["-----", "H", "549.5612\t0\t1501.733\t1500.533"]

def exC5 : List (List Char) :=
  linesOf ["-s", "LuQY (%)\t5", "-----"]

def exC5w : List (List Char) :=
  linesOf ["a", "b"]

def exC6 : List (List Char) :=
  linesOf ["Time\t10:00\t11:00\t12:00", "LuQY (%)\t1\t2", "-----"]

def exC7 : List (List Char) :=
  linesOf ["8/27/2025\t2:03 PM\t2:05 PM", "-----"]

def exC6st : HeaderState :=
  ⟨List.replicate 3 emptySD, List.replicate 3 emptyRD⟩

def exC6row : List Char :=
  "LuQY (%)\t1\t2".toList

def exC4row : List Char :=
  "549.5612\t0\t1501.733\t1500.533".toList

def keyMW : List Char :=
  "Laser intensity (mW/cm^2)".toList

def keySuns : List Char :=
  "Laser intensity (suns)".toList

def dashRow : List Char :=
  "-----".toList

/-! ### Predicates for the canonicalizer development (C9) -/

/-- Every character of the string is a fixed point of the (modelled) NFKC
character map. -/
def allFixed (s : List Char) : Prop :=
  ∀ c ∈ s, charNFKC c = c

/-- No character of the string is whitespace. -/
def wsFree (s : List Char) : Prop :=
  ∀ c ∈ s, pyIsSpace c = false

/-- The first character, if any, is not whitespace. -/
def noLeadWS (s : List Char) : Prop :=
  ∀ c, s.head? = some c → pyIsSpace c = false

/-- The last character, if any, is not whitespace. -/
def noTrailWS (s : List Char) : Prop :=
  ∀ c, s.getLast? = some c → pyIsSpace c = false

/-- Whitespace-collapsed form: every whitespace character is a single
space not followed by further whitespace. -/
def collapsedB : List Char → Bool
  | [] => true
  | c :: cs =>
    if pyIsSpace c then
      (c = ' ' && (match cs with | [] => true | d :: _ => !pyIsSpace d)
        && collapsedB cs)
    else collapsedB cs

/-! ### Basic lemmas -/

theorem foldl_inv {α : Type} {β : Type} (P : α → Prop) (f : α → β → α)
    (h : ∀ a b, P a → P (f a b)) :
    ∀ (l : List β) (a : α), P a → P (l.foldl f a) := by
  intro l
  induction l with
  | nil => intro a ha; exact ha
  | cons b bs ih => intro a ha; exact ih (f a b) (h a b ha)

theorem numMeas_eq (lines : List (List Char)) :
    numMeas lines = if timesOf lines = [] then 1 else (timesOf lines).length := by
  cases h : findTimesGo 0 (lines.take (delimIdx lines)) with
  | none => simp [numMeas, timesOf, h]
  | some p =>
    obtain ⟨ts, ti⟩ := p
    by_cases hts : ts = [] <;> simp [numMeas, timesOf, h, hts]

theorem parseMulti_eq (lines : List (List Char)) :
    parseMulti lines =
      ⟨(if timesOf lines = [] then (headerStateOf lines).sdicts
        else stampTimes (numMeas lines) (timesOf lines) (headerStateOf lines).sdicts),
       (headerStateOf lines).rdicts,
       (specOf lines).wls, (specOf lines).lums,
       (specOf lines).raws, (specOf lines).darks⟩ := by
  cases h : findTimesGo 0 (lines.take (delimIdx lines)) with
  | none =>
    simp [parseMulti, numMeas, timesOf, timesIdxOf, headerStateOf, specOf, h]
  | some p =>
    obtain ⟨ts, ti⟩ := p
    by_cases hts : ts = [] <;>
      simp [parseMulti, numMeas, timesOf, timesIdxOf, headerStateOf, specOf, h, hts]

theorem applyKV_sdicts_length (key v : List Char) (i : ℕ) (st : HeaderState) :
    (applyKV key v i st).sdicts.length = st.sdicts.length := by
  unfold applyKV
  cases lookupKey headerMapSettings key with
  | some t =>
    by_cases h : t = "subcell".toList
    · simp [h]
    · simp only [h, if_neg h]
      cases parsePyFloat (replComma v) <;> simp
  | none =>
    cases lookupKey headerMapResult key with
    | some t => cases parsePyFloat (replComma v) <;> simp
    | none => simp

theorem applyKV_rdicts_length (key v : List Char) (i : ℕ) (st : HeaderState) :
    (applyKV key v i st).rdicts.length = st.rdicts.length := by
  unfold applyKV
  cases lookupKey headerMapSettings key with
  | some t =>
    by_cases h : t = "subcell".toList
    · simp [h]
    · simp only [h, if_neg h]
      cases parsePyFloat (replComma v) <;> simp
  | none =>
    cases lookupKey headerMapResult key with
    | some t => cases parsePyFloat (replComma v) <;> simp
    | none => simp

theorem procLine_lengths (num : ℕ) (ti : Option ℕ) (st : HeaderState)
    (il : ℕ × List Char) :
    (procLine num ti st il).sdicts.length = st.sdicts.length
    ∧ (procLine num ti st il).rdicts.length = st.rdicts.length := by
  unfold procLine
  dsimp only
  split
  · exact ⟨rfl, rfl⟩
  · split
    · exact ⟨rfl, rfl⟩
    · split
      · refine foldl_inv
          (fun (a : HeaderState) => a.sdicts.length = st.sdicts.length
            ∧ a.rdicts.length = st.rdicts.length) _ ?_ _ _ ⟨rfl, rfl⟩
        intro a i hi
        dsimp only
        constructor
        · rw [applyKV_sdicts_length]; exact hi.1
        · rw [applyKV_rdicts_length]; exact hi.2
      · exact ⟨applyKV_sdicts_length _ _ _ _, applyKV_rdicts_length _ _ _ _⟩

theorem headerStateOf_lengths (lines : List (List Char)) :
    (headerStateOf lines).sdicts.length = numMeas lines
    ∧ (headerStateOf lines).rdicts.length = numMeas lines := by
  unfold headerStateOf
  refine foldl_inv
    (fun (a : HeaderState) =>
      a.sdicts.length = numMeas lines ∧ a.rdicts.length = numMeas lines)
    _ ?_ _ _ ⟨by simp, by simp⟩
  intro a il hi
  refine ⟨?_, ?_⟩
  · rw [(procLine_lengths _ _ _ _).1]; exact hi.1
  · rw [(procLine_lengths _ _ _ _).2]; exact hi.2

theorem stampTimes_length (num : ℕ) (ts : List (List Char)) (sd : List SDict) :
    (stampTimes num ts sd).length = sd.length := by
  unfold stampTimes
  exact foldl_inv (fun (a : List SDict) => a.length = sd.length) _
    (fun a i h => by simp only [List.length_set]; exact h) _ _ rfl

theorem rowVals_len (v : List (List Char)) (c : ℕ) :
    ∀ (n iv : ℕ),
      (rowVals v c n iv).1.length = n
      ∧ (rowVals v c n iv).2.1.length = (if 2 ≤ c then n else 0)
      ∧ (rowVals v c n iv).2.2.length = (if 3 ≤ c then n else 0) := by
  intro n
  induction n with
  | zero => intro iv; simp [rowVals]
  | succ m ih =>
    intro iv
    unfold rowVals
    by_cases h3 : 3 ≤ c
    · have h2 : 2 ≤ c := by omega
      simp only [if_pos h3, if_pos h2]
      exact ⟨by simp [(ih (iv + 3)).1],
        by simp [if_pos h2, (ih (iv + 3)).2.1],
        by simp [if_pos h3, (ih (iv + 3)).2.2]⟩
    · by_cases h2 : 2 ≤ c
      · simp only [if_neg h3, if_pos h2]
        exact ⟨by simp [(ih (iv + 2)).1],
          by simp [if_pos h2, (ih (iv + 2)).2.1],
          by simp [if_neg h3, (ih (iv + 2)).2.2]⟩
      · simp only [if_neg h3, if_neg h2]
        exact ⟨by simp [(ih (iv + 1)).1],
          by simp [if_neg h2, (ih (iv + 1)).2.1],
          by simp [if_neg h3, (ih (iv + 1)).2.2]⟩

theorem specStep_lums_length (num : ℕ) (st : SpecState) (line : List Char)
    (h : st.lums.length = num) :
    (specStep num st line).lums.length = num := by
  unfold specStep
  dsimp only
  split
  · exact h
  · split
    · exact h
    · split
      · exact h
      · simp only [zipApp, List.length_zipWith, (rowVals_len _ _ _ _).1, h,
          min_self]

theorem specOf_lums_length (lines : List (List Char)) :
    (specOf lines).lums.length = numMeas lines := by
  unfold specOf
  exact foldl_inv (fun (a : SpecState) => a.lums.length = numMeas lines) _
    (fun a l h => specStep_lums_length _ _ _ h) _ _ (by simp)

/-! ### Delimiter-boundary lemmas -/

theorem delimIdx_le (lines : List (List Char)) : delimIdx lines ≤ lines.length := by
  induction lines with
  | nil => simp [delimIdx]
  | cons l ls ih =>
    unfold delimIdx
    split
    · simp
    · simpa using Nat.succ_le_succ ih

theorem delimIdx_before (lines : List (List Char)) :
    ∀ j, j < delimIdx lines → delimLine (lines.getD j []) = false := by
  induction lines with
  | nil => intro j hj; simp [delimIdx] at hj
  | cons l ls ih =>
    intro j hj
    unfold delimIdx at hj
    by_cases hl : delimLine l = true
    · simp [hl] at hj
    · rw [if_neg hl] at hj
      cases j with
      | zero => simpa using Bool.eq_false_iff.mpr hl
      | succ k => simpa using ih k (by omega)

theorem delimIdx_hit (lines : List (List Char)) :
    delimIdx lines < lines.length →
      delimLine (lines.getD (delimIdx lines) []) = true := by
  induction lines with
  | nil => intro h; simp [delimIdx] at h
  | cons l ls ih =>
    intro h
    unfold delimIdx at h ⊢
    by_cases hl : delimLine l = true
    · simp [hl]
    · rw [if_neg hl] at h ⊢
      simpa using ih (by simpa using h)

theorem delimIdx_eq_length (lines : List (List Char))
    (h : ∀ l ∈ lines, delimLine l = false) : delimIdx lines = lines.length := by
  induction lines with
  | nil => simp [delimIdx]
  | cons l ls ih =>
    unfold delimIdx
    rw [if_neg (by simp [h l (by simp)])]
    simp [ih fun x hx => h x (by simp [hx])]

theorem skipBlankF_ge (lines : List (List Char)) (f s : ℕ)
    (h : lines.length ≤ s) : skipBlankF lines f s = s := by
  cases f with
  | zero => rfl
  | succ f =>
    unfold skipBlankF
    rw [if_neg]
    intro hc
    omega

theorem startIdx_of_no_delim (lines : List (List Char))
    (h : delimIdx lines = lines.length) : startIdx lines = lines.length + 1 := by
  unfold startIdx
  dsimp only
  rw [h, skipBlankF_ge lines _ _ (by omega), if_neg (by omega)]

theorem specOf_of_no_delim (lines : List (List Char))
    (h : delimIdx lines = lines.length) :
    specOf lines = ⟨[], List.replicate (numMeas lines) [], none, none⟩ := by
  unfold specOf
  rw [startIdx_of_no_delim lines h, List.drop_eq_nil_of_le (by omega)]
  rfl

/-! ### Claim theorems: C8, C2, C5 -/

/-- C8 (counterexample): the key canonicalizer alone does not unify the
mojibake spelling `cmÂ²` with `cm^2`: NFKC runs first and rewrites `²` to
`2`, after which the literal `cmÂ²` replacement can no longer match, and
`cmÂ2` contains no `cm2` substring; `_canon_key` of the mojibake label
therefore differs from `_canon_key` of the plain label. -/
theorem c8_counterexample :
    canonKey "Subcell area (cmÂ²)".toList ≠ canonKey "Subcell area (cm^2)".toList := by
  decide

/-- C8 (corrected): the spellings `cm²`, `cm^2`, `cm**2`, `cm2` and the
replacement-character variant all canonicalize to one key, and the
mojibake `cmÂ²` spelling reaches that same key only through the
`text.replace('Â²', '²')` that `LuQYParser.parse` applies to the file text
before any header lookup. -/
theorem c8_theorem :
    canonKey "Subcell area (cm²)".toList = canonKey "Subcell area (cm^2)".toList
    ∧ canonKey "Subcell area (cm**2)".toList = canonKey "Subcell area (cm^2)".toList
    ∧ canonKey "Subcell area (cm2)".toList = canonKey "Subcell area (cm^2)".toList
    ∧ canonKey "Subcell area (cm�)".toList = canonKey "Subcell area (cm^2)".toList
    ∧ canonKey (textPreReplace "Subcell area (cmÂ²)".toList)
        = canonKey "Subcell area (cm^2)".toList := by
  decide

/-- C2 (counterexample): for a file with no time row and a recognized
result row carrying three values, the spec's fallback formula gives 3,
but `parse_multi` builds one measurement: there is no
maximum-over-header-rows fallback in the code. -/
theorem c2_counterexample :
    specNumMeasurements exC2 = 3
    ∧ (parseMulti exC2).sets.length = 1
    ∧ (parseMulti exC2).lums.length = 1 := by
  decide

/-- C2 (corrected): `num_measurements` is the count of detected time
values when a time row is found (1 when its value list is empty), and 1
when no time row is found — `numMeas` is exactly that derivation — and
every per-measurement output of `parse_multi` has that length.  No
fallback to header-row value counts exists. -/
theorem c2_theorem (lines : List (List Char)) :
    (parseMulti lines).sets.length = numMeas lines
    ∧ (parseMulti lines).ress.length = numMeas lines
    ∧ (parseMulti lines).lums.length = numMeas lines := by
  rw [parseMulti_eq]
  dsimp only
  refine ⟨?_, (headerStateOf_lengths lines).2, specOf_lums_length lines⟩
  split
  · exact (headerStateOf_lengths lines).1
  · rw [stampTimes_length]
    exact (headerStateOf_lengths lines).1

/-- C5 (counterexample): the delimiter regex `r'^-[-\\s]*$'` escapes the
backslash, so its character class is dash, backslash and the letter `s`:
the line `-s` is treated as the delimiter although it is not dashes-only,
so for the input `["-s", "LuQY (%)\t5", "-----"]` the code's boundary is
0 while the spec's dashes-only boundary is 2, and the `LuQY (%)` header
row is swallowed into the data region instead of producing a result. -/
theorem c5_counterexample :
    delimLine "-s".toList = true
    ∧ specDashOnly "-s".toList = false
    ∧ delimIdx exC5 = 0
    ∧ specBoundary exC5 = 2
    ∧ ((parseMulti exC5).ress.getD 0 emptyRD) "luqy".toList = none := by
  decide

/-- C5 (corrected): the header/data boundary is the index of the first
line whose trimmed content is a dash followed only by characters among
dash, backslash and `s` (the effect of the escaped `\\s` in the regex);
when no such line exists the boundary is the end of the line sequence and
the parse yields zero spectral rows — a valid degenerate case, not an
error. -/
theorem c5_theorem (lines : List (List Char)) :
    (∀ j, j < delimIdx lines → delimLine (lines.getD j []) = false)
    ∧ (delimIdx lines < lines.length →
        delimLine (lines.getD (delimIdx lines) []) = true)
    ∧ delimIdx lines ≤ lines.length
    ∧ ((∀ l ∈ lines, delimLine l = false) →
        delimIdx lines = lines.length
        ∧ (parseMulti lines).wls = []
        ∧ (parseMulti lines).raws = none
        ∧ (parseMulti lines).darks = none
        ∧ (parseMulti lines).lums = List.replicate (numMeas lines) []) := by
  refine ⟨delimIdx_before lines, delimIdx_hit lines, delimIdx_le lines, ?_⟩
  intro h
  have hd := delimIdx_eq_length lines h
  have hs := specOf_of_no_delim lines hd
  rw [parseMulti_eq]
  exact ⟨hd, by rw [hs], by rw [hs], by rw [hs], by rw [hs]⟩

/-- C5 (witness): the degenerate branch of `c5_theorem` applied to a
delimiter-free two-line input. -/
theorem c5_theorem_witness :
    delimIdx exC5w = 2 ∧ (parseMulti exC5w).wls = [] := by
  have h := c5_theorem exC5w
  exact ⟨(h.2.2.2 (by decide)).1, (h.2.2.2 (by decide)).2.1⟩

/-! ### Timestamp lemmas (C7) -/

theorem stampFold_getD (ts : List (List Char)) (is : List ℕ) :
    ∀ (sd : List SDict) (j : ℕ), j < sd.length →
      ((is.foldl (fun sd i => sd.set i (dinsert "timestamp".toList
          (SVal.str (ts.getD i [])) (sd.getD i emptySD))) sd).getD j emptySD)
        "timestamp".toList
      = (if j ∈ is then some (SVal.str (ts.getD j []))
         else (sd.getD j emptySD) "timestamp".toList) := by
  induction is with
  | nil => intro sd j hj; simp
  | cons i is ih =>
    intro sd j hj
    rw [List.foldl_cons, ih _ j (by simpa using hj)]
    by_cases hji : j ∈ is
    · simp [hji]
    · rw [if_neg hji]
      by_cases hje : j = i
      · subst hje
        rw [if_pos (by simp)]
        rw [List.getD_eq_getElem?_getD, List.getElem?_set_self hj]
        simp [dinsert]
      · rw [if_neg (by simp [hje, hji]), List.getD_eq_getElem?_getD,
          List.getElem?_set_ne (fun he => hje he.symm),
          ← List.getD_eq_getElem?_getD]

/-- C7 (counterexample): an old-style time row is stored verbatim (after
date-prefix joining); no ISO-8601 normalization happens anywhere in the
parser — the stored strings keep the `M/D/YYYY h:mm AM/PM` shape and do
not start with the ISO date the spec's round-trip scenario requires. -/
theorem c7_counterexample :
    ((parseMulti exC7).sets.getD 0 emptySD) "timestamp".toList
      = some (SVal.str "8/27/2025 2:03 PM".toList)
    ∧ ((parseMulti exC7).sets.getD 1 emptySD) "timestamp".toList
      = some (SVal.str "8/27/2025 2:05 PM".toList)
    ∧ ¬ "2025-08-27".toList <+: "8/27/2025 2:03 PM".toList := by
  decide

/-- C7 (corrected): when a time row is detected with a non-empty value
list, each detected value string is stored verbatim (exactly the string
produced by the detection step, including date-prefix joining) as the
string-valued `timestamp` setting of the corresponding measurement slot;
no format conversion of any kind is applied, and nothing is raised. -/
theorem c7_theorem (lines : List (List Char)) (ts : List (List Char)) (ti : ℕ)
    (hf : findTimesGo 0 (lines.take (delimIdx lines)) = some (ts, ti))
    (hne : ts ≠ []) :
    ∀ j, j < ts.length →
      ((parseMulti lines).sets.getD j emptySD) "timestamp".toList
        = some (SVal.str (ts.getD j [])) := by
  intro j hj
  have hts : timesOf lines = ts := by unfold timesOf; rw [hf]
  have hnum : numMeas lines = ts.length := by
    unfold numMeas; rw [hf]; simp [hne]
  rw [parseMulti_eq]
  dsimp only
  rw [if_neg (by rw [hts]; exact hne), hts, hnum]
  unfold stampTimes
  rw [stampFold_getD ts _ _ j (by rw [(headerStateOf_lengths lines).1, hnum]; exact hj)]
  rw [if_pos (by simpa using hj)]

/-- C7 (witness): `c7_theorem` applied to the two-measurement example
file, slot 0. -/
theorem c7_theorem_witness :
    ((parseMulti exC7).sets.getD 0 emptySD) "timestamp".toList
      = some (SVal.str "8/27/2025 2:03 PM".toList) := by
  have h := c7_theorem exC7
    ["8/27/2025 2:03 PM".toList, "8/27/2025 2:05 PM".toList] 0
    (by decide) (by decide) 0 (by decide)
  simpa using h

/-! ### Header-slot lemmas (C6) -/

theorem applyKV_other (key v : List Char) (i j : ℕ) (hij : i ≠ j)
    (st : HeaderState) :
    (applyKV key v i st).sdicts.getD j emptySD = st.sdicts.getD j emptySD
    ∧ (applyKV key v i st).rdicts.getD j emptyRD = st.rdicts.getD j emptyRD := by
  have hset : ∀ (l : List SDict) (d : SDict),
      (l.set i d).getD j emptySD = l.getD j emptySD := by
    intro l d
    rw [List.getD_eq_getElem?_getD, List.getElem?_set_ne hij,
      ← List.getD_eq_getElem?_getD]
  have hset2 : ∀ (l : List RDict) (d : RDict),
      (l.set i d).getD j emptyRD = l.getD j emptyRD := by
    intro l d
    rw [List.getD_eq_getElem?_getD, List.getElem?_set_ne hij,
      ← List.getD_eq_getElem?_getD]
  unfold applyKV
  cases lookupKey headerMapSettings key with
  | some t =>
    by_cases h : t = "subcell".toList
    · simp only [h, if_pos rfl]
      exact ⟨hset _ _, rfl⟩
    · simp only [if_neg h]
      cases parsePyFloat (replComma v) with
      | some w => exact ⟨hset _ _, rfl⟩
      | none => exact ⟨rfl, rfl⟩
  | none =>
    cases lookupKey headerMapResult key with
    | some t =>
      cases parsePyFloat (replComma v) with
      | some w => exact ⟨rfl, hset2 _ _⟩
      | none => exact ⟨rfl, rfl⟩
    | none => exact ⟨rfl, rfl⟩

/-- C6 (counterexample): with three measurements, a recognized result row
supplying two values falls into the single-value branch: only its first
value is stored, into slot 0; the second supplied value is discarded and
slots 1 and 2 stay unset — the spec's "supplied values fill the leading
slots" does not hold. -/
theorem c6_counterexample :
    numMeas exC6 = 3
    ∧ ((parseMulti exC6).ress.getD 0 emptyRD) "luqy".toList
        = some (PyFloat.num (mkRat 1 1))
    ∧ ((parseMulti exC6).ress.getD 1 emptyRD) "luqy".toList = none
    ∧ ((parseMulti exC6).ress.getD 2 emptyRD) "luqy".toList = none := by
  decide

/-- C6 (corrected): a non-time header row supplying fewer value cells
than `num_measurements` is processed by the single-value branch: only its
first cell (stripped) is dispatched, into measurement slot 0; every other
supplied value is discarded, and all slots with index ≥ 1 are left
unmodified.  Nothing is raised (the processing is a total function). -/
theorem c6_theorem (num : ℕ) (ti : Option ℕ) (st : HeaderState) (idx : ℕ)
    (line : List Char)
    (hb : ¬(pyStrip line = [] ∨ some idx = ti))
    (hp : 2 ≤ (partsOfLine line).length)
    (hv : (partsOfLine line).tail.length < num) :
    procLine num ti st (idx, line)
      = applyKV (canonKey ((partsOfLine line).headD []))
          (pyStrip ((partsOfLine line).tail.headD [])) 0 st
    ∧ ∀ j, 0 < j →
        ((procLine num ti st (idx, line)).sdicts.getD j emptySD
            = st.sdicts.getD j emptySD
        ∧ (procLine num ti st (idx, line)).rdicts.getD j emptyRD
            = st.rdicts.getD j emptyRD) := by
  have h1 : procLine num ti st (idx, line)
      = applyKV (canonKey ((partsOfLine line).headD []))
          (pyStrip ((partsOfLine line).tail.headD [])) 0 st := by
    unfold procLine
    dsimp only
    rw [if_neg hb, if_neg (by omega), if_neg (fun hc => by omega)]
  refine ⟨h1, fun j hj => ?_⟩
  rw [h1]
  exact applyKV_other _ _ 0 j (by omega) st

/-- C6 (witness): `c6_theorem` on the short `LuQY (%)` row of the
three-measurement example. -/
theorem c6_theorem_witness :
    (procLine 3 (some 0) exC6st (1, exC6row)).rdicts.getD 1 emptyRD
      = exC6st.rdicts.getD 1 emptyRD := by
  exact ((c6_theorem 3 (some 0) exC6st 1 exC6row (by decide) (by decide)
    (by decide)).2 1 (by decide)).2

/-! ### Row-shape lemmas (C10) -/

theorem splitTab_no_tab (s : List Char) (h : '\t' ∉ s) : splitTab s = [s] := by
  induction s with
  | nil => rfl
  | cons c cs ih =>
    have hc : ¬ c = '\t' := fun he => h (by rw [he]; exact List.mem_cons_self _ _)
    unfold splitTab
    rw [ih (fun hm => h (by simp [hm]))]
    simp [hc]

theorem splitTab_append (v : List Char) (hv : '\t' ∉ v) :
    ∀ k : List Char, '\t' ∉ k → splitTab (k ++ '\t' :: v) = [k, v] := by
  intro k
  induction k with
  | nil =>
    intro _
    show splitTab ('\t' :: v) = [[], v]
    unfold splitTab
    rw [splitTab_no_tab v hv]
    simp
  | cons c k ih =>
    intro hk
    have hc : ¬ c = '\t' := fun he => hk (by rw [he]; exact List.mem_cons_self _ _)
    show splitTab (c :: (k ++ '\t' :: v)) = [c :: k, v]
    unfold splitTab
    rw [ih (fun hm => hk (by simp [hm]))]
    simp [hc]

theorem splitTab_mkRow (key v : List Char) (hkt : '\t' ∉ key) (hvt : '\t' ∉ v) :
    splitTab (mkRow key v) = [key, v] := by
  unfold mkRow
  exact splitTab_append v hvt key hkt

theorem mkRow_contains_tab (k v : List Char) :
    (mkRow k v).contains '\t' = true := by
  simp [mkRow, List.contains, List.elem_eq_mem]

theorem dropTrailingWS_cons (c : Char) (x : List Char)
    (hc : pyIsSpace c = false) :
    dropTrailingWS (c :: x) = c :: dropTrailingWS x := by
  unfold dropTrailingWS
  rw [List.reverse_cons, List.dropWhile_append]
  split
  · next hemp =>
    rw [List.dropWhile_cons, List.dropWhile_nil, if_neg (by simp [hc])]
    rw [List.isEmpty_iff] at hemp
    simp [hemp]
  · simp

theorem pyStrip_cons (c : Char) (x : List Char) (hc : pyIsSpace c = false) :
    pyStrip (c :: x) = c :: dropTrailingWS x := by
  unfold pyStrip
  rw [List.dropWhile_cons, if_neg (by simp [hc])]
  exact dropTrailingWS_cons c x hc

theorem pyStrip_ne_of_head (c : Char) (x : List Char)
    (hc : pyIsSpace c = false) : pyStrip (c :: x) ≠ [] := by
  rw [pyStrip_cons _ _ hc]
  simp

theorem delimLine_of_head (c : Char) (x : List Char)
    (hc : pyIsSpace c = false) (hd : c ≠ '-') : delimLine (c :: x) = false := by
  unfold delimLine
  rw [pyStrip_cons _ _ hc]
  simp [hd]

theorem lineTimes_mkRow_none (key v : List Char)
    (hne : pyStrip (mkRow key v) ≠ [])
    (hkt : '\t' ∉ key) (hvt : '\t' ∉ v)
    (hkey : ¬ pyLower (pyStrip key) = "time".toList) :
    lineTimes (mkRow key v) = none := by
  unfold lineTimes
  dsimp only
  rw [if_neg hne, if_pos (mkRow_contains_tab key v),
    splitTab_mkRow key v hkt hvt]
  rw [if_neg (by intro hcon; exact absurd hcon.1 (by simp)),
    if_neg (by intro hcon; exact hkey (by simpa using hcon.2))]

theorem procLine_mkRow (n : ℕ) (st : HeaderState) (key v : List Char)
    (hne : pyStrip (mkRow key v) ≠ []) (hkt : '\t' ∉ key) (hvt : '\t' ∉ v) :
    procLine 1 none st (n, mkRow key v)
      = applyKV (canonKey key) (pyStrip v) 0 st := by
  unfold procLine
  dsimp only
  rw [if_neg (by simp [hne])]
  have hparts : partsOfLine (mkRow key v) = [key, v] := by
    unfold partsOfLine
    rw [if_pos (mkRow_contains_tab key v)]
    exact splitTab_mkRow key v hkt hvt
  rw [hparts]
  rw [if_neg (by simp), if_neg (by simp)]
  rfl

theorem findTimesGo_none (ls : List (List Char))
    (h : ∀ l ∈ ls, lineTimes l = none) : ∀ i, findTimesGo i ls = none := by
  induction ls with
  | nil => intro i; rfl
  | cons l ls ih =>
    intro i
    unfold findTimesGo
    rw [h l (by simp)]
    exact ih (fun x hx => h x (by simp [hx])) (i + 1)

theorem delimIdx_append (pre rest : List (List Char))
    (h : ∀ l ∈ pre, delimLine l = false) :
    delimIdx (pre ++ rest) = pre.length + delimIdx rest := by
  induction pre with
  | nil => simp [delimIdx]
  | cons l ls ih =>
    rw [List.cons_append]
    have hstep : delimIdx (l :: (ls ++ rest))
        = if delimLine l then 0 else delimIdx (ls ++ rest) + 1 := rfl
    rw [hstep, if_neg (by simp [h l (by simp)]),
      ih (fun x hx => h x (by simp [hx]))]
    simp [List.length_cons]
    omega

theorem applyKV_suns_getD (v : List Char) (q : PyFloat) (st : HeaderState)
    (hq : parsePyFloat (replComma v) = some q) (hl : 0 < st.sdicts.length) :
    ((applyKV (canonKey keySuns) v 0 st).sdicts.getD 0 emptySD)
      "laser_intensity".toList = some (SVal.flt (pyMul100 q)) := by
  rw [show canonKey keySuns = keySuns from by decide]
  unfold applyKV
  rw [show lookupKey headerMapSettings keySuns = some "laser_intensity".toList
    from by decide]
  dsimp only
  rw [if_neg (by decide), hq]
  dsimp only
  rw [if_pos (show keySuns = "Laser intensity (suns)".toList from rfl)]
  rw [List.getD_eq_getElem?_getD, List.getElem?_set_self hl]
  simp [dinsert]

theorem applyKV_mw_getD (v : List Char) (q : PyFloat) (st : HeaderState)
    (hq : parsePyFloat (replComma v) = some q) (hl : 0 < st.sdicts.length) :
    ((applyKV (canonKey keyMW) v 0 st).sdicts.getD 0 emptySD)
      "laser_intensity".toList = some (SVal.flt q) := by
  rw [show canonKey keyMW = keyMW from by decide]
  unfold applyKV
  rw [show lookupKey headerMapSettings keyMW = some "laser_intensity".toList
    from by decide]
  dsimp only
  rw [if_neg (by decide), hq]
  dsimp only
  rw [if_neg (by decide)]
  rw [List.getD_eq_getElem?_getD, List.getElem?_set_self hl]
  simp [dinsert]

theorem parseMulti_sets_two_rows (pre : List (List Char)) (rowA rowB : List Char)
    (hAd : delimLine rowA = false) (hBd : delimLine rowB = false)
    (hAt : lineTimes rowA = none) (hBt : lineTimes rowB = none)
    (hpre_d : ∀ l ∈ pre, delimLine l = false)
    (hpre_t : ∀ l ∈ pre, lineTimes l = none) :
    (parseMulti (pre ++ [rowA, rowB, dashRow])).sets
      = (procLine 1 none
          (procLine 1 none
            (pre.enum.foldl (procLine 1 none) ⟨[emptySD], [emptyRD]⟩)
            (pre.length, rowA))
          (pre.length + 1, rowB)).sdicts := by
  set lines := pre ++ [rowA, rowB, dashRow] with hlines
  have hdelim : delimIdx lines = pre.length + 2 := by
    rw [hlines, delimIdx_append pre _ hpre_d]
    simp [delimIdx, hAd, hBd, show delimLine dashRow = true from by decide]
  have htake : lines.take (delimIdx lines) = pre ++ [rowA, rowB] := by
    rw [hdelim, hlines, List.take_append]
    rfl
  have hfind : findTimesGo 0 (lines.take (delimIdx lines)) = none := by
    rw [htake]
    refine findTimesGo_none _ ?_ 0
    intro l hl
    rcases List.mem_append.mp hl with hin | hin
    · exact hpre_t l hin
    · simp only [List.mem_cons, List.not_mem_nil, or_false] at hin
      rcases hin with h1 | h1
      · rw [h1]; exact hAt
      · rw [h1]; exact hBt
  have hts : timesOf lines = [] := by unfold timesOf; rw [hfind]
  have hnum : numMeas lines = 1 := by unfold numMeas; rw [hfind]
  have hti : timesIdxOf lines = none := by unfold timesIdxOf; rw [hfind]
  rw [parseMulti_eq]
  dsimp only
  rw [if_pos hts]
  unfold headerStateOf
  rw [htake, hnum, hti, List.enum_append, List.foldl_append]
  rfl

/-- C10 (confirmed): both laser-intensity spellings target the single
`laser_intensity` setting; the ×100 suns conversion is applied only when
the row's key is the suns spelling; and since each header row overwrites
the dictionary entry, the stored value comes from whichever of the two
rows occurs later — stated for both orders, with arbitrary header lines
(no delimiter, no time row) before the pair. -/
theorem c10_theorem (pre : List (List Char)) (v1 v2 : List Char)
    (q1 q2 : PyFloat)
    (hpre_d : ∀ l ∈ pre, delimLine l = false)
    (hpre_t : ∀ l ∈ pre, lineTimes l = none)
    (hv1 : '\t' ∉ v1) (hv2 : '\t' ∉ v2)
    (hq1 : parsePyFloat (replComma (pyStrip v1)) = some q1)
    (hq2 : parsePyFloat (replComma (pyStrip v2)) = some q2) :
    ((parseMulti (pre ++ [mkRow keyMW v1, mkRow keySuns v2, dashRow])).sets.getD 0
        emptySD) "laser_intensity".toList = some (SVal.flt (pyMul100 q2))
    ∧ ((parseMulti (pre ++ [mkRow keySuns v2, mkRow keyMW v1, dashRow])).sets.getD 0
        emptySD) "laser_intensity".toList = some (SVal.flt q1) := by
  have hkmw : '\t' ∉ keyMW := by decide
  have hksuns : '\t' ∉ keySuns := by decide
  have hneMW : pyStrip (mkRow keyMW v1) ≠ [] := by
    show pyStrip ('L' :: ("aser intensity (mW/cm^2)".toList ++ '\t' :: v1)) ≠ []
    exact pyStrip_ne_of_head _ _ (by decide)
  have hneSuns : pyStrip (mkRow keySuns v2) ≠ [] := by
    show pyStrip ('L' :: ("aser intensity (suns)".toList ++ '\t' :: v2)) ≠ []
    exact pyStrip_ne_of_head _ _ (by decide)
  have hdMW : delimLine (mkRow keyMW v1) = false := by
    show delimLine ('L' :: ("aser intensity (mW/cm^2)".toList ++ '\t' :: v1)) = false
    exact delimLine_of_head _ _ (by decide) (by decide)
  have hdSuns : delimLine (mkRow keySuns v2) = false := by
    show delimLine ('L' :: ("aser intensity (suns)".toList ++ '\t' :: v2)) = false
    exact delimLine_of_head _ _ (by decide) (by decide)
  have hkeyMWlow : ¬ pyLower (pyStrip keyMW) = "time".toList := by decide
  have hkeySunslow : ¬ pyLower (pyStrip keySuns) = "time".toList := by decide
  have htMW : lineTimes (mkRow keyMW v1) = none :=
    lineTimes_mkRow_none _ _ hneMW hkmw hv1 hkeyMWlow
  have htSuns : lineTimes (mkRow keySuns v2) = none :=
    lineTimes_mkRow_none _ _ hneSuns hksuns hv2 hkeySunslow
  have hfoldlen : ∀ (l : List (ℕ × List Char)) (st : HeaderState),
      (l.foldl (procLine 1 none) st).sdicts.length = st.sdicts.length := by
    intro l st
    exact foldl_inv (fun (a : HeaderState) => a.sdicts.length = st.sdicts.length)
      _ (fun a b h => by
        dsimp only
        rw [(procLine_lengths _ _ _ _).1]; exact h) _ _ rfl
  constructor
  · rw [parseMulti_sets_two_rows pre _ _ hdMW hdSuns htMW htSuns hpre_d hpre_t]
    rw [procLine_mkRow _ _ _ _ hneSuns hksuns hv2]
    refine applyKV_suns_getD _ _ _ hq2 ?_
    rw [procLine_mkRow _ _ _ _ hneMW hkmw hv1, applyKV_sdicts_length, hfoldlen]
    simp
  · rw [parseMulti_sets_two_rows pre _ _ hdSuns hdMW htSuns htMW hpre_d hpre_t]
    rw [procLine_mkRow _ _ _ _ hneMW hkmw hv1]
    refine applyKV_mw_getD _ _ _ hq1 ?_
    rw [procLine_mkRow _ _ _ _ hneSuns hksuns hv2, applyKV_sdicts_length, hfoldlen]
    simp

/-- C10 (witness): `c10_theorem` with no extra header lines, values `50`
and `0.9722`; the suns row comes later, so the stored intensity is
`0.9722 × 100 = 97.22`. -/
theorem c10_theorem_witness :
    ((parseMulti ([] ++ [mkRow keyMW "50".toList, mkRow keySuns "0.9722".toList,
        dashRow])).sets.getD 0 emptySD) "laser_intensity".toList
      = some (SVal.flt (pyMul100 (PyFloat.num (mkRat 9722 10000)))) := by
  exact (c10_theorem [] "50".toList "0.9722".toList
    (PyFloat.num (mkRat 50 1)) (PyFloat.num (mkRat 9722 10000))
    (by simp) (by simp) (by decide) (by decide) (by decide) (by decide)).1

/-! ### Spectral-section lemmas (C1, C3, C4) -/

theorem rowOk_false_of_short (num : ℕ) (line : List Char)
    (h : (partsOfLine line).length < 1 + num) : rowOk num line = false := by
  unfold rowOk
  by_cases hA : pyStrip line = []
  · rw [if_pos hA]
  · rw [if_neg hA, if_pos h]

theorem specStep_skip (num : ℕ) (st : SpecState) (line : List Char)
    (h : rowOk num line = false) : specStep num st line = st := by
  unfold rowOk at h
  by_cases hA : pyStrip line = []
  · unfold specStep; rw [if_pos hA]
  · rw [if_neg hA] at h
    by_cases hB : (partsOfLine line).length < 1 + num
    · unfold specStep; dsimp only; rw [if_neg hA, if_pos hB]
    · rw [if_neg hB] at h
      cases hp : parsePyFloat (replComma ((partsOfLine line).headD [])) with
      | none => unfold specStep; dsimp only; rw [if_neg hA, if_neg hB, hp]
      | some w => rw [hp] at h; exact Bool.noConfusion h

theorem specStep_accept (num : ℕ) (st : SpecState) (line : List Char)
    (h : rowOk num line = true) :
    specStep num st line = specStepAcc num st line := by
  unfold specStepAcc
  unfold rowOk at h
  by_cases hA : pyStrip line = []
  · rw [if_pos hA] at h; exact Bool.noConfusion h
  · rw [if_neg hA] at h
    by_cases hB : (partsOfLine line).length < 1 + num
    · rw [if_pos hB] at h; exact Bool.noConfusion h
    · rw [if_neg hB] at h
      cases hp : parsePyFloat (replComma ((partsOfLine line).headD [])) with
      | none => rw [hp] at h; exact Bool.noConfusion h
      | some w =>
        unfold specStep
        dsimp only
        rw [if_neg hA, if_neg hB, hp]
        unfold rowWl rowCh chanCount
        rw [hp]
        rfl

theorem zipApp_maplen (num : ℕ) :
    ∀ (k : ℕ) (ls : List (List PyFloat)) (xs : List PyFloat),
      ls.map List.length = List.replicate num k → xs.length = num →
      (zipApp ls xs).map List.length = List.replicate num (k + 1) := by
  induction num with
  | zero =>
    intro k ls xs h1 h2
    have hls : ls = [] := by
      cases ls with
      | nil => rfl
      | cons a as => simp [List.replicate] at h1
    rw [List.length_eq_zero] at h2
    simp [zipApp, hls, h2]
  | succ m ih =>
    intro k ls xs h1 h2
    cases ls with
    | nil => simp [List.replicate_succ] at h1
    | cons a as =>
      cases xs with
      | nil => simp at h2
      | cons x xs' =>
        simp only [List.map_cons, List.replicate_succ, List.cons.injEq] at h1
        simp only [List.length_cons, Nat.succ.injEq] at h2
        simp only [zipApp, List.zipWith_cons_cons, List.map_cons,
          List.replicate_succ, List.cons.injEq]
        constructor
        · simp [h1.1]
        · exact ih k as xs' h1.2 h2

theorem cons_congr {α : Type} {a b : α} {l m : List α} (h1 : a = b)
    (h2 : l = m) : a :: l = b :: m := by
  rw [h1, h2]

theorem range_map_shift (v : List (List Char)) (k off m iv : ℕ) :
    (List.range (m + 1)).map (fun i => parseCell v (iv + i * k + off))
      = parseCell v (iv + off)
        :: (List.range m).map fun i => parseCell v (iv + k + i * k + off) := by
  rw [List.range_succ_eq_map, List.map_cons, List.map_map]
  congr 1
  · show parseCell v (iv + 0 * k + off) = parseCell v (iv + off)
    congr 1
    ring
  · refine List.map_congr_left fun i _ => ?_
    show parseCell v (iv + (i + 1) * k + off) = parseCell v (iv + k + i * k + off)
    congr 1
    ring

theorem rowVals_comps (v : List (List Char)) (c : ℕ) :
    ∀ (n iv : ℕ),
      (rowVals v c n iv).1
          = (List.range n).map (fun i => parseCell v (iv + i * chStride c + 0))
      ∧ (rowVals v c n iv).2.1
          = (if 2 ≤ c then
              (List.range n).map fun i => parseCell v (iv + i * chStride c + 1)
             else [])
      ∧ (rowVals v c n iv).2.2
          = (if 3 ≤ c then
              (List.range n).map fun i => parseCell v (iv + i * chStride c + 2)
             else []) := by
  intro n
  induction n with
  | zero => intro iv; simp [rowVals]
  | succ m ih =>
    intro iv
    obtain ⟨i1, i2, i3⟩ := ih (iv + chStride c)
    by_cases h3 : 3 ≤ c
    · have h2 : 2 ≤ c := by omega
      have hst : chStride c = 3 := by unfold chStride; rw [if_pos h3]
      have hrw : rowVals v c (m + 1) iv
          = (parseCell v iv :: (rowVals v c m (iv + 3)).1,
             parseCell v (iv + 1) :: (rowVals v c m (iv + 3)).2.1,
             parseCell v (iv + 2) :: (rowVals v c m (iv + 3)).2.2) := by
        rw [rowVals.eq_def]
        dsimp only
        rw [if_pos h3]
      rw [hst] at i1 i2 i3 ⊢
      rw [hrw]
      rw [if_pos h2, if_pos h3, range_map_shift v 3 0 m iv,
        range_map_shift v 3 1 m iv, range_map_shift v 3 2 m iv]
      rw [if_pos h2] at i2
      rw [if_pos h3] at i3
      exact ⟨cons_congr rfl i1, cons_congr rfl i2,
        cons_congr rfl i3⟩
    · by_cases h2 : 2 ≤ c
      · have hst : chStride c = 2 := by
          unfold chStride; rw [if_neg h3, if_pos h2]
        have hrw : rowVals v c (m + 1) iv
            = (parseCell v iv :: (rowVals v c m (iv + 2)).1,
               parseCell v (iv + 1) :: (rowVals v c m (iv + 2)).2.1,
               (rowVals v c m (iv + 2)).2.2) := by
          rw [rowVals.eq_def]
          dsimp only
          rw [if_neg h3, if_pos h2]
        rw [hst] at i1 i2 i3 ⊢
        rw [hrw]
        rw [if_pos h2, if_neg h3, range_map_shift v 2 0 m iv,
          range_map_shift v 2 1 m iv]
        rw [if_pos h2] at i2
        rw [if_neg h3] at i3
        exact ⟨cons_congr rfl i1, cons_congr rfl i2, i3⟩
      · have hst : chStride c = 1 := by
          unfold chStride; rw [if_neg h3, if_neg h2]
        have hrw : rowVals v c (m + 1) iv
            = (parseCell v iv :: (rowVals v c m (iv + 1)).1,
               (rowVals v c m (iv + 1)).2.1,
               (rowVals v c m (iv + 1)).2.2) := by
          rw [rowVals.eq_def]
          dsimp only
          rw [if_neg h3, if_neg h2]
        rw [hst] at i1 i2 i3 ⊢
        rw [hrw]
        rw [if_neg h2, if_neg h3, range_map_shift v 1 0 m iv]
        rw [if_neg h2] at i2
        rw [if_neg h3] at i3
        exact ⟨cons_congr rfl i1, i2, i3⟩

theorem specFold (num : ℕ) :
    ∀ (ls : List (List Char)) (st : SpecState) (kr kd : ℕ),
      st.lums.map List.length = List.replicate num st.wls.length →
      chansOk num st.raws kr →
      chansOk num st.darks kd →
      ((ls.foldl (specStep num) st).wls
          = st.wls ++ (ls.filter (rowOk num)).map rowWl)
      ∧ (ls.foldl (specStep num) st).lums.map List.length
          = List.replicate num (ls.foldl (specStep num) st).wls.length
      ∧ chansOk num (ls.foldl (specStep num) st).raws
          (kr + ls.countP fun l => rowOk num l && decide (2 ≤ rowCh num l))
      ∧ chansOk num (ls.foldl (specStep num) st).darks
          (kd + ls.countP fun l => rowOk num l && decide (3 ≤ rowCh num l)) := by
  intro ls
  induction ls with
  | nil =>
    intro st kr kd h1 h2 h3
    simp only [List.foldl_nil, List.filter_nil, List.map_nil,
      List.countP_nil, Nat.add_zero]
    exact ⟨(List.append_nil _).symm, h1, h2, h3⟩
  | cons l ls ih =>
    intro st kr kd h1 h2 h3
    rw [List.foldl_cons, List.filter_cons, List.countP_cons, List.countP_cons]
    by_cases hok : rowOk num l = true
    · rw [specStep_accept num st l hok]
      have hfs : (rowVals (partsOfLine l).tail (rowCh num l) num 0).1.length = num :=
        (rowVals_len _ _ _ _).1
      have hw' : (specStepAcc num st l).wls = st.wls ++ [rowWl l] := rfl
      have hl1 : (specStepAcc num st l).lums.map List.length
          = List.replicate num (specStepAcc num st l).wls.length := by
        show (zipApp st.lums (rowVals (partsOfLine l).tail (rowCh num l) num 0).1).map
            List.length = List.replicate num (st.wls ++ [rowWl l]).length
        rw [List.length_append, List.length_singleton]
        exact zipApp_maplen num _ _ _ h1 hfs
      have hraw : chansOk num (specStepAcc num st l).raws
          (kr + if 2 ≤ rowCh num l then 1 else 0) := by
        show chansOk num (if 2 ≤ rowCh num l then
            some (zipApp (st.raws.getD (List.replicate num []))
              (rowVals (partsOfLine l).tail (rowCh num l) num 0).2.1)
          else st.raws) _
        by_cases hch : 2 ≤ rowCh num l
        · rw [if_pos hch, if_pos hch]
          have hrs : (rowVals (partsOfLine l).tail (rowCh num l) num 0).2.1.length
              = num := by
            rw [(rowVals_len _ _ _ _).2.1, if_pos hch]
          rcases h2 with ⟨hn, hk⟩ | ⟨rs, hrs0, hlen, hpos⟩
          · right
            refine ⟨_, rfl, ?_, by omega⟩
            rw [hn]
            simp only [Option.getD_none]
            rw [hk]
            exact zipApp_maplen num 0 _ _ (by simp) hrs
          · right
            refine ⟨_, rfl, ?_, by omega⟩
            rw [hrs0]
            simp only [Option.getD_some]
            exact zipApp_maplen num kr _ _ hlen hrs
        · rw [if_neg hch, if_neg hch, Nat.add_zero]
          exact h2
      have hdark : chansOk num (specStepAcc num st l).darks
          (kd + if 3 ≤ rowCh num l then 1 else 0) := by
        show chansOk num (if 3 ≤ rowCh num l then
            some (zipApp (st.darks.getD (List.replicate num []))
              (rowVals (partsOfLine l).tail (rowCh num l) num 0).2.2)
          else st.darks) _
        by_cases hch : 3 ≤ rowCh num l
        · rw [if_pos hch, if_pos hch]
          have hrs : (rowVals (partsOfLine l).tail (rowCh num l) num 0).2.2.length
              = num := by
            rw [(rowVals_len _ _ _ _).2.2, if_pos hch]
          rcases h3 with ⟨hn, hk⟩ | ⟨rs, hrs0, hlen, hpos⟩
          · right
            refine ⟨_, rfl, ?_, by omega⟩
            rw [hn]
            simp only [Option.getD_none]
            rw [hk]
            exact zipApp_maplen num 0 _ _ (by simp) hrs
          · right
            refine ⟨_, rfl, ?_, by omega⟩
            rw [hrs0]
            simp only [Option.getD_some]
            exact zipApp_maplen num kd _ _ hlen hrs
        · rw [if_neg hch, if_neg hch, Nat.add_zero]
          exact h3
      obtain ⟨g1, g2, g3, g4⟩ :=
        ih (specStepAcc num st l) (kr + if 2 ≤ rowCh num l then 1 else 0)
          (kd + if 3 ≤ rowCh num l then 1 else 0) hl1 hraw hdark
      refine ⟨?_, g2, ?_, ?_⟩
      · rw [g1, hw', if_pos hok]
        simp [List.append_assoc]
      · have : kr + ((ls.countP fun l => rowOk num l && decide (2 ≤ rowCh num l))
            + if (rowOk num l && decide (2 ≤ rowCh num l)) = true then 1 else 0)
            = (kr + if 2 ≤ rowCh num l then 1 else 0)
              + ls.countP fun l => rowOk num l && decide (2 ≤ rowCh num l) := by
          rw [hok]
          simp only [Bool.true_and]
          by_cases hch : 2 ≤ rowCh num l
          · simp [hch]; omega
          · simp [hch]
        rw [this]
        exact g3
      · have : kd + ((ls.countP fun l => rowOk num l && decide (3 ≤ rowCh num l))
            + if (rowOk num l && decide (3 ≤ rowCh num l)) = true then 1 else 0)
            = (kd + if 3 ≤ rowCh num l then 1 else 0)
              + ls.countP fun l => rowOk num l && decide (3 ≤ rowCh num l) := by
          rw [hok]
          simp only [Bool.true_and]
          by_cases hch : 3 ≤ rowCh num l
          · simp [hch]; omega
          · simp [hch]
        rw [this]
        exact g4
    · have hok' : rowOk num l = false := by
        cases hv : rowOk num l with
        | false => rfl
        | true => exact absurd hv hok
      rw [specStep_skip num st l hok']
      obtain ⟨g1, g2, g3, g4⟩ := ih st kr kd h1 h2 h3
      refine ⟨?_, g2, ?_, ?_⟩
      · rw [g1, if_neg (by simp [hok'])]
      · rw [show (kr + ((ls.countP fun l => rowOk num l && decide (2 ≤ rowCh num l))
            + if (rowOk num l && decide (2 ≤ rowCh num l)) = true then 1 else 0))
            = kr + ls.countP fun l => rowOk num l && decide (2 ≤ rowCh num l) by
          simp [hok']]
        exact g3
      · rw [show (kd + ((ls.countP fun l => rowOk num l && decide (3 ≤ rowCh num l))
            + if (rowOk num l && decide (3 ≤ rowCh num l)) = true then 1 else 0))
            = kd + ls.countP fun l => rowOk num l && decide (3 ≤ rowCh num l) by
          simp [hok']]
        exact g4

theorem chansOk_none_iff {num k : ℕ} {o : Option (List (List PyFloat))}
    (h : chansOk num o k) : o = none ↔ k = 0 := by
  rcases h with ⟨h1, h2⟩ | ⟨rs, h1, _, hpos⟩
  · simp [h1, h2]
  · rw [h1]
    constructor
    · intro hn; cases hn
    · intro hk; omega

/-! ### Claim theorems: C1, C3, C4 -/

/-- C1 (counterexample): for the single-measurement input
`["-----", "hdr", "500", "501\t1", "502\t2\t3\t4"]` three data rows have a
parseable first cell, yet only two rows are accepted (the bare `500` row
has fewer than `1 + num` cells and is dropped), and the lazily created
raw/dark lists hold a single value each — shorter than the wavelength
array.  Both the claimed common length and the claimed length formula
fail. -/
theorem c1_counterexample :
    (parseMulti exC1).wls.length = 2
    ∧ specFirstCellCount exC1 = 3
    ∧ (parseMulti exC1).raws = some [[PyFloat.num (mkRat 3 1)]]
    ∧ (parseMulti exC1).darks = some [[PyFloat.num (mkRat 4 1)]] := by
  decide

/-- C1 (corrected): the wavelength array and every flux array have equal
length, that length being the count of accepted rows — non-blank rows
with at least `1 + num_measurements` cells whose first cell parses as a
float (`rowOk`); the wavelength array is exactly the parses of the
accepted rows in order, so dropped rows do not shift later indices.  The
raw (resp. dark) channel, however, holds one value per accepted row with
at least 2 (resp. 3) channels only (`chansOk`), so it can be shorter than
the wavelength array; it is `none` exactly when no such row exists. -/
theorem c1_theorem (lines : List (List Char)) :
    ((parseMulti lines).wls
        = ((lines.drop (startIdx lines)).filter (rowOk (numMeas lines))).map rowWl)
    ∧ (parseMulti lines).lums.map List.length
        = List.replicate (numMeas lines) (parseMulti lines).wls.length
    ∧ (parseMulti lines).wls.length
        = (lines.drop (startIdx lines)).countP (rowOk (numMeas lines))
    ∧ chansOk (numMeas lines) (parseMulti lines).raws
        ((lines.drop (startIdx lines)).countP fun l =>
          rowOk (numMeas lines) l && decide (2 ≤ rowCh (numMeas lines) l))
    ∧ ((parseMulti lines).raws = none ↔
        (lines.drop (startIdx lines)).countP (fun l =>
          rowOk (numMeas lines) l && decide (2 ≤ rowCh (numMeas lines) l)) = 0)
    ∧ chansOk (numMeas lines) (parseMulti lines).darks
        ((lines.drop (startIdx lines)).countP fun l =>
          rowOk (numMeas lines) l && decide (3 ≤ rowCh (numMeas lines) l))
    ∧ ((parseMulti lines).darks = none ↔
        (lines.drop (startIdx lines)).countP (fun l =>
          rowOk (numMeas lines) l && decide (3 ≤ rowCh (numMeas lines) l)) = 0) := by
  have hp := parseMulti_eq lines
  obtain ⟨g1, g2, g3, g4⟩ :=
    specFold (numMeas lines) (lines.drop (startIdx lines))
      ⟨[], List.replicate (numMeas lines) [], none, none⟩ 0 0
      (by simp) (Or.inl ⟨rfl, rfl⟩) (Or.inl ⟨rfl, rfl⟩)
  have hwls : (parseMulti lines).wls
      = ((lines.drop (startIdx lines)).filter (rowOk (numMeas lines))).map rowWl := by
    rw [hp]
    show (specOf lines).wls = _
    unfold specOf
    rw [g1]
    simp
  have hlums : (parseMulti lines).lums.map List.length
      = List.replicate (numMeas lines) (parseMulti lines).wls.length := by
    rw [hp]
    show (specOf lines).lums.map List.length
      = List.replicate (numMeas lines) (specOf lines).wls.length
    unfold specOf
    exact g2
  have hraws : chansOk (numMeas lines) (parseMulti lines).raws
      ((lines.drop (startIdx lines)).countP fun l =>
        rowOk (numMeas lines) l && decide (2 ≤ rowCh (numMeas lines) l)) := by
    rw [hp]
    show chansOk _ (specOf lines).raws _
    unfold specOf
    simpa using g3
  have hdarks : chansOk (numMeas lines) (parseMulti lines).darks
      ((lines.drop (startIdx lines)).countP fun l =>
        rowOk (numMeas lines) l && decide (3 ≤ rowCh (numMeas lines) l)) := by
    rw [hp]
    show chansOk _ (specOf lines).darks _
    unfold specOf
    simpa using g4
  refine ⟨hwls, hlums, ?_, hraws, chansOk_none_iff hraws, hdarks,
    chansOk_none_iff hdarks⟩
  rw [hwls, List.length_map, List.countP_eq_length_filter]

/-- C1 (witness): `c1_theorem` at the counterexample input — the length
formula and the non-`none` raw channel. -/
theorem c1_theorem_witness :
    (parseMulti exC1).wls.length
      = (exC1.drop (startIdx exC1)).countP (rowOk (numMeas exC1))
    ∧ ¬ (parseMulti exC1).raws = none := by
  have h := c1_theorem exC1
  refine ⟨h.2.2.1, fun hn => ?_⟩
  exact absurd ((h.2.2.2.2.1).mp hn) (by decide)

/-- C3 (counterexample): with two measurements, the row
`500\t1\t2\t3\t4` supplies `2 × num` value cells, so `channels = 2` and
the raw channel IS populated (`[[2], [4]]`), contradicting "raw/dark are
never populated in this mode"; and the short row `501\t9` is dropped
entirely (the wavelength array is `[500]`), not padded with NaN. -/
theorem c3_counterexample :
    numMeas exC3 = 2
    ∧ (parseMulti exC3).raws
        = some [[PyFloat.num (mkRat 2 1)], [PyFloat.num (mkRat 4 1)]]
    ∧ (parseMulti exC3).wls = [PyFloat.num (mkRat 500 1)]
    ∧ (parseMulti exC3).lums
        = [[PyFloat.num (mkRat 1 1)], [PyFloat.num (mkRat 3 1)]] := by
  decide

/-- C3 (corrected): in multi-measurement mode a data row with fewer than
`num` value cells is dropped, not NaN-padded; an accepted row is read at
a stride of `min(channels, 3)` cells per measurement (`chStride`, where
`channels = max(1, len(values) // num)`): one flux per measurement at
offset `i·stride`, and when the row supplies at least `2·num` (resp.
`3·num`) value cells (`channels ≥ 2`, resp. `≥ 3`) the raw (resp. dark)
channel IS populated with the cells at offset `i·stride + 1` (resp.
`i·stride + 2`). -/
theorem c3_theorem (num : ℕ) (st : SpecState) (line : List Char)
    (hn : 1 < num) :
    ((partsOfLine line).length < 1 + num → specStep num st line = st)
    ∧ (rowOk num line = true →
        ((specStep num st line).lums
            = zipApp st.lums ((List.range num).map fun i =>
                parseCell (partsOfLine line).tail (i * chStride (rowCh num line)))
        ∧ (2 ≤ rowCh num line ↔ 2 * num ≤ (partsOfLine line).tail.length)
        ∧ (3 ≤ rowCh num line ↔ 3 * num ≤ (partsOfLine line).tail.length)
        ∧ (specStep num st line).raws
            = (if 2 ≤ rowCh num line then
                some (zipApp (st.raws.getD (List.replicate num []))
                  ((List.range num).map fun i =>
                    parseCell (partsOfLine line).tail
                      (i * chStride (rowCh num line) + 1)))
              else st.raws)
        ∧ (specStep num st line).darks
            = (if 3 ≤ rowCh num line then
                some (zipApp (st.darks.getD (List.replicate num []))
                  ((List.range num).map fun i =>
                    parseCell (partsOfLine line).tail
                      (i * chStride (rowCh num line) + 2)))
              else st.darks))) := by
  constructor
  · intro hshort
    exact specStep_skip num st line (rowOk_false_of_short num line hshort)
  · intro hok
    rw [specStep_accept num st line hok]
    obtain ⟨r1, r2, r3⟩ :=
      rowVals_comps (partsOfLine line).tail (rowCh num line) num 0
    have hiff : 2 ≤ rowCh num line ↔ 2 * num ≤ (partsOfLine line).tail.length := by
      unfold rowCh chanCount
      rw [le_max_iff]
      constructor
      · intro hh
        rcases hh with hh | hh
        · omega
        · exact (Nat.le_div_iff_mul_le (by omega)).mp hh
      · intro hh
        exact Or.inr ((Nat.le_div_iff_mul_le (by omega)).mpr hh)
    have hiff3 : 3 ≤ rowCh num line ↔ 3 * num ≤ (partsOfLine line).tail.length := by
      unfold rowCh chanCount
      rw [le_max_iff]
      constructor
      · intro hh
        rcases hh with hh | hh
        · omega
        · exact (Nat.le_div_iff_mul_le (by omega)).mp hh
      · intro hh
        exact Or.inr ((Nat.le_div_iff_mul_le (by omega)).mpr hh)
    refine ⟨?_, hiff, hiff3, ?_, ?_⟩
    · show zipApp st.lums (rowVals (partsOfLine line).tail (rowCh num line) num 0).1
        = _
      rw [r1]
      congr 1
      refine List.map_congr_left fun i _ => ?_
      congr 1
      simp
    · show (if 2 ≤ rowCh num line then
          some (zipApp (st.raws.getD (List.replicate num []))
            (rowVals (partsOfLine line).tail (rowCh num line) num 0).2.1)
        else st.raws) = _
      by_cases hch : 2 ≤ rowCh num line
      · rw [if_pos hch, if_pos hch, r2, if_pos hch]
        congr 2
        refine List.map_congr_left fun i _ => ?_
        congr 1
        simp
      · rw [if_neg hch, if_neg hch]
    · show (if 3 ≤ rowCh num line then
          some (zipApp (st.darks.getD (List.replicate num []))
            (rowVals (partsOfLine line).tail (rowCh num line) num 0).2.2)
        else st.darks) = _
      by_cases hch : 3 ≤ rowCh num line
      · rw [if_pos hch, if_pos hch, r3, if_pos hch]
        congr 2
        refine List.map_congr_left fun i _ => ?_
        congr 1
        simp
      · rw [if_neg hch, if_neg hch]

/-- C3 (witness): `c3_theorem` at two-measurement rows: the short row is
dropped, the 4-value row has `channels ≥ 2` because it supplies `2 × 2`
value cells, and an 8-value row (`channels = 4`, stride `min(4,3) = 3`)
reads the second measurement's flux from value cell 3. -/
theorem c3_theorem_witness :
    specStep 2 ⟨[], List.replicate 2 [], none, none⟩ "501\t9".toList
      = ⟨[], List.replicate 2 [], none, none⟩
    ∧ (2 ≤ rowCh 2 "500\t1\t2\t3\t4".toList
        ↔ 2 * 2 ≤ (partsOfLine "500\t1\t2\t3\t4".toList).tail.length)
    ∧ (specStep 2 ⟨[], List.replicate 2 [], none, none⟩
          "500\t1\t2\t3\t4\t5\t6\t7\t8".toList).lums
        = [[PyFloat.num (mkRat 1 1)], [PyFloat.num (mkRat 4 1)]] := by
  have h1 := c3_theorem 2 ⟨[], List.replicate 2 [], none, none⟩
    "501\t9".toList (by decide)
  have h2 := c3_theorem 2 ⟨[], List.replicate 2 [], none, none⟩
    "500\t1\t2\t3\t4".toList (by decide)
  have h3 := c3_theorem 2 ⟨[], List.replicate 2 [], none, none⟩
    "500\t1\t2\t3\t4\t5\t6\t7\t8".toList (by decide)
  refine ⟨h1.1 (by decide), (h2.2 (by decide)).2.1, ?_⟩
  rw [(h3.2 (by decide)).1]
  decide

/-- C4 (counterexample): in single-measurement mode a row with exactly 2
value cells (`500\t1\t2`) populates flux AND raw (`channels = 2`),
contradicting "a 2-value row yields flux only with no raw/dark". -/
theorem c4_counterexample :
    (parseMulti exC4).lums = [[PyFloat.num (mkRat 1 1)]]
    ∧ (parseMulti exC4).raws = some [[PyFloat.num (mkRat 2 1)]]
    ∧ (parseMulti exC4).darks = none := by
  decide

/-- C4 (corrected): with `num_measurements = 1` the cells after the
wavelength are read positionally — flux from cell 0 always; raw from
cell 1 whenever the row has at least 2 value cells (including
exactly 2); dark from cell 2 whenever it has at least 3.  Raw/dark stay
as they were (in particular `none` for the whole file when no row ever
supplies the 2nd/3rd value cell). -/
theorem c4_theorem (st : SpecState) (line : List Char)
    (h : rowOk 1 line = true) :
    (specStep 1 st line).wls = st.wls ++ [rowWl line]
    ∧ (specStep 1 st line).lums
        = zipApp st.lums [parseCell (partsOfLine line).tail 0]
    ∧ (specStep 1 st line).raws
        = (if 2 ≤ (partsOfLine line).tail.length then
            some (zipApp (st.raws.getD [[]])
              [parseCell (partsOfLine line).tail 1])
          else st.raws)
    ∧ (specStep 1 st line).darks
        = (if 3 ≤ (partsOfLine line).tail.length then
            some (zipApp (st.darks.getD [[]])
              [parseCell (partsOfLine line).tail 2])
          else st.darks) := by
  have hlen : 1 ≤ (partsOfLine line).tail.length := by
    unfold rowOk at h
    by_cases hA : pyStrip line = []
    · rw [if_pos hA] at h; exact Bool.noConfusion h
    · rw [if_neg hA] at h
      by_cases hB : (partsOfLine line).length < 1 + 1
      · rw [if_pos hB] at h; exact Bool.noConfusion h
      · have := List.length_tail (partsOfLine line)
        omega
  have hch : rowCh 1 line = (partsOfLine line).tail.length := by
    unfold rowCh chanCount
    rw [Nat.div_one]
    exact max_eq_right hlen
  rw [specStep_accept 1 st line h]
  obtain ⟨r1, r2, r3⟩ :=
    rowVals_comps (partsOfLine line).tail (rowCh 1 line) 1 0
  have hone : ∀ (k off : ℕ),
      ((List.range 1).map fun i =>
        parseCell (partsOfLine line).tail (0 + i * k + off))
      = [parseCell (partsOfLine line).tail off] := by
    intro k off
    rw [show List.range 1 = [0] from rfl, List.map_cons, List.map_nil]
    congr 2
    simp
  refine ⟨rfl, ?_, ?_, ?_⟩
  · show zipApp st.lums (rowVals (partsOfLine line).tail (rowCh 1 line) 1 0).1 = _
    rw [r1, hone _ 0]
  · show (if 2 ≤ rowCh 1 line then
        some (zipApp (st.raws.getD (List.replicate 1 []))
          (rowVals (partsOfLine line).tail (rowCh 1 line) 1 0).2.1)
      else st.raws) = _
    rw [hch] at r2 ⊢
    by_cases h2 : 2 ≤ (partsOfLine line).tail.length
    · rw [if_pos h2, if_pos h2, r2, if_pos h2, hone _ 1]
      rfl
    · rw [if_neg h2, if_neg h2]
  · show (if 3 ≤ rowCh 1 line then
        some (zipApp (st.darks.getD (List.replicate 1 []))
          (rowVals (partsOfLine line).tail (rowCh 1 line) 1 0).2.2)
      else st.darks) = _
    rw [hch] at r3 ⊢
    by_cases h3 : 3 ≤ (partsOfLine line).tail.length
    · rw [if_pos h3, if_pos h3, r3, if_pos h3, hone _ 2]
      rfl
    · rw [if_neg h3, if_neg h3]

/-- C4 (witness): `c4_theorem` at the spec's four-column example row —
wavelength 549.5612, flux 0, raw 1501.733, dark 1500.533. -/
theorem c4_theorem_witness :
    (specStep 1 ⟨[], [[]], none, none⟩ exC4row).wls
      = [PyFloat.num (mkRat 5495612 10000)]
    ∧ (specStep 1 ⟨[], [[]], none, none⟩ exC4row).raws
      = some [[PyFloat.num (mkRat 1501733 1000)]]
    ∧ (specStep 1 ⟨[], [[]], none, none⟩ exC4row).darks
      = some [[PyFloat.num (mkRat 1500533 1000)]] := by
  have h := c4_theorem ⟨[], [[]], none, none⟩ exC4row (by decide)
  refine ⟨?_, ?_, ?_⟩
  · rw [h.1]; decide
  · rw [h.2.2.1]; decide
  · rw [h.2.2.2]; decide

/-! ### Canonicalizer development (C9): character map -/

theorem charNFKC_idem (c : Char) : charNFKC (charNFKC c) = charNFKC c := by
  by_cases h1 : c = '²'
  · rw [h1]; decide
  · by_cases h2 : c = ' '
    · rw [h2]; decide
    · have h : charNFKC c = c := by unfold charNFKC; rw [if_neg h1, if_neg h2]
      rw [h, h]

theorem allFixed_map (s : List Char) : allFixed (s.map charNFKC) := by
  intro c hc
  rcases List.mem_map.mp hc with ⟨d, _, hd⟩
  rw [← hd]
  exact charNFKC_idem d

theorem map_of_allFixed (s : List Char) (h : allFixed s) : s.map charNFKC = s := by
  induction s with
  | nil => rfl
  | cons c cs ih =>
    rw [List.map_cons, h c (by simp), ih fun d hd => h d (by simp [hd])]

theorem not_mem_sup2_of_allFixed (s : List Char) (h : allFixed s) : '²' ∉ s := by
  intro hm
  have := h '²' hm
  rw [show charNFKC '²' = '2' from by decide] at this
  exact absurd this (by decide)

theorem not_mem_nbsp_of_allFixed (s : List Char) (h : allFixed s) :
    ' ' ∉ s := by
  intro hm
  have := h ' ' hm
  rw [show charNFKC ' ' = ' ' from by decide] at this
  exact absurd this (by decide)

/-! ### Canonicalizer development (C9): replaceAllF basics -/

theorem replaceAllF_nil (pat rep : List Char) (f : ℕ) :
    replaceAllF pat rep f [] = [] := by
  cases f <;> rfl

theorem replaceAllF_mem (pat rep : List Char) :
    ∀ (f : ℕ) (s : List Char) (c : Char),
      c ∈ replaceAllF pat rep f s → c ∈ s ∨ c ∈ rep := by
  intro f
  induction f with
  | zero =>
    intro s c hc
    cases s with
    | nil => rw [replaceAllF_nil] at hc; cases hc
    | cons a as => exact Or.inl hc
  | succ g ih =>
    intro s c hc
    cases s with
    | nil => rw [replaceAllF_nil] at hc; cases hc
    | cons a as =>
      unfold replaceAllF at hc
      split at hc
      · rcases List.mem_append.mp hc with h | h
        · exact Or.inr h
        · rcases ih _ c h with h2 | h2
          · exact Or.inl (List.mem_of_mem_drop h2)
          · exact Or.inr h2
      · rcases List.mem_cons.mp hc with h | h
        · exact Or.inl (by simp [h])
        · rcases ih as c h with h2 | h2
          · exact Or.inl (by simp [h2])
          · exact Or.inr h2

theorem replaceAllF_id (pat rep : List Char) :
    ∀ (f : ℕ) (s : List Char), ¬ pat <:+: s → replaceAllF pat rep f s = s := by
  intro f
  induction f with
  | zero =>
    intro s _
    cases s with
    | nil => rfl
    | cons a as => rfl
  | succ g ih =>
    intro s hs
    cases s with
    | nil => rfl
    | cons a as =>
      unfold replaceAllF
      split
      · next hc =>
        simp only [Bool.and_eq_true, decide_eq_true_eq] at hc
        exact absurd (List.IsPrefix.isInfix (List.isPrefixOf_iff_prefix.mp hc.2)) hs
      · next hc =>
        exact congrArg (a :: ·)
          (ih as fun hinf => hs (hinf.trans (List.suffix_cons a as).isInfix))

theorem prefix_of_append (q a b : List Char) (h : q <+: a ++ b) :
    q <+: a ∨ a <+: q := by
  induction a generalizing q with
  | nil => exact Or.inr (List.nil_prefix)
  | cons x a' ih =>
    cases q with
    | nil => exact Or.inl (List.nil_prefix)
    | cons y q' =>
      rw [List.cons_append, List.cons_prefix_cons] at h
      rcases ih q' h.2 with h2 | h2
      · exact Or.inl (List.cons_prefix_cons.mpr ⟨h.1, h2⟩)
      · exact Or.inr (List.cons_prefix_cons.mpr ⟨h.1.symm, h2⟩)

theorem replaceAllF_prefix (pat rep : List Char) :
    ∀ (f : ℕ) (s q : List Char),
      (∀ q', q' <:+ q → q' ≠ [] → ¬(q' <+: rep) ∧ ¬(rep <+: q')) →
      q <+: replaceAllF pat rep f s → q <+: s := by
  intro f
  induction f with
  | zero =>
    intro s q _ hq
    cases s with
    | nil => rw [replaceAllF_nil] at hq; exact hq
    | cons a as => exact hq
  | succ g ih =>
    intro s q hsafe hq
    cases s with
    | nil => rw [replaceAllF_nil] at hq; exact hq
    | cons a as =>
      unfold replaceAllF at hq
      split at hq
      · cases q with
        | nil => exact List.nil_prefix
        | cons d q' =>
          rcases prefix_of_append _ _ _ hq with h | h
          · exact absurd h (hsafe (d :: q') (List.suffix_refl _) (by simp)).1
          · exact absurd h (hsafe (d :: q') (List.suffix_refl _) (by simp)).2
      · cases q with
        | nil => exact List.nil_prefix
        | cons d q' =>
          rw [List.cons_prefix_cons] at hq
          refine List.cons_prefix_cons.mpr ⟨hq.1, ?_⟩
          exact ih as q'
            (fun q2 hs hne => hsafe q2 (hs.trans (List.suffix_cons d q')) hne) hq.2

theorem infix_append_cases (p a b : List Char) (h : p <:+: a ++ b) :
    p <:+: a ∨ p <:+: b
    ∨ ∃ p1 p2, p = p1 ++ p2 ∧ p1 ≠ [] ∧ p2 ≠ [] ∧ p1 <:+ a ∧ p2 <+: b := by
  obtain ⟨t, u, htu⟩ := h
  rcases List.append_eq_append_iff.mp htu with ⟨a2, ha, hu⟩ | ⟨c2, htp, hb⟩
  · refine Or.inl ⟨t, a2, ?_⟩
    rw [ha]
  · rcases List.append_eq_append_iff.mp htp with ⟨k, hak, hpk⟩ | ⟨k, htk, hck⟩
    · by_cases hk : k = []
      · subst hk
        rw [List.nil_append] at hpk
        subst hpk
        exact Or.inr (Or.inl (List.IsPrefix.isInfix ⟨u, hb.symm⟩))
      · by_cases hc : c2 = []
        · subst hc
          rw [List.append_nil] at hpk
          subst hpk
          exact Or.inl (List.IsSuffix.isInfix ⟨t, hak.symm⟩)
        · exact Or.inr (Or.inr ⟨k, c2, hpk, hk, hc, ⟨t, hak.symm⟩, ⟨u, hb.symm⟩⟩)
    · refine Or.inr (Or.inl ⟨k, u, ?_⟩)
      rw [hb, hck]

theorem replaceAllF_no_pat (pat rep : List Char)
    (hp2 : 2 ≤ pat.length) (hrep : rep ≠ [])
    (h1 : ¬ pat <:+: rep)
    (h2 : ∀ i, i < pat.length → 0 < i → ¬ (pat.take i <:+ rep))
    (h3 : ∀ j, j < pat.length → 1 ≤ j →
      ¬(pat.drop j <+: rep) ∧ ¬(rep <+: pat.drop j)) :
    ∀ (f : ℕ) (s : List Char), s.length ≤ f →
      ¬ pat <:+: replaceAllF pat rep f s := by
  intro f
  induction f with
  | zero =>
    intro s hf hinf
    have hs : s = [] := by
      cases s with
      | nil => rfl
      | cons a as => simp at hf
    subst hs
    rw [replaceAllF_nil] at hinf
    have := hinf.length_le
    simp only [List.length_nil, Nat.le_zero] at this
    omega
  | succ g ih =>
    intro s hf hinf
    cases s with
    | nil =>
      rw [replaceAllF_nil] at hinf
      have := hinf.length_le
      simp only [List.length_nil, Nat.le_zero] at this
      omega
    | cons a as =>
      unfold replaceAllF at hinf
      split at hinf
      · rcases infix_append_cases _ _ _ hinf with
          hA | hA | ⟨p1, p2, hsplit, hp1, hpb, hs1, hs2⟩
        · exact h1 hA
        · refine ih (List.drop pat.length (a :: as)) ?_ hA
          rw [List.length_drop]
          simp only [List.length_cons] at hf ⊢
          omega
        · have e1 : p1 = pat.take p1.length := by
            rw [hsplit, List.take_left]
          have hlt : p1.length < pat.length := by
            rw [hsplit, List.length_append]
            have := List.length_pos.mpr hpb
            omega
          exact (h2 p1.length hlt (List.length_pos.mpr hp1)) (e1 ▸ hs1)
      · next hcond =>
        rcases infix_append_cases pat [a] _
            (show pat <:+: [a] ++ replaceAllF pat rep g as from hinf) with
          hA | hA | ⟨p1, p2, hsplit, hp1, hpb, hs1, hs2⟩
        · have := hA.length_le
          simp only [List.length_cons, List.length_nil] at this
          omega
        · refine ih as ?_ hA
          simp only [List.length_cons] at hf
          omega
        · have hp1a : p1 = [a] := by
            rcases hs1 with ⟨w, hw⟩
            cases w with
            | nil => simpa using hw
            | cons x xs =>
              have hlen := congrArg List.length hw
              simp only [List.length_append, List.length_cons,
                List.length_nil] at hlen
              have : p1 = [] := List.length_eq_zero.mp (by omega)
              exact absurd this hp1
          rw [hp1a] at hsplit
          have hsafe : ∀ q', q' <:+ p2 → q' ≠ [] →
              ¬(q' <+: rep) ∧ ¬(rep <+: q') := by
            intro q' hq' hne
            have hkd : q' = p2.drop (p2.length - q'.length) :=
              List.suffix_iff_eq_drop.mp hq'
            have e3 : q' = pat.drop ((p2.length - q'.length) + 1) := by
              rw [hsplit]
              show q' = List.drop ((p2.length - q'.length) + 1) (a :: p2)
              rw [List.drop_succ_cons]
              exact hkd
            have hle : q'.length ≤ p2.length := hq'.length_le
            have hqpos : 0 < q'.length := List.length_pos.mpr hne
            have hppos : 0 < p2.length := List.length_pos.mpr hpb
            have hjlt : (p2.length - q'.length) + 1 < pat.length := by
              rw [hsplit]
              simp only [List.cons_append, List.nil_append, List.length_cons]
              omega
            have := h3 _ hjlt (by omega)
            rw [← e3] at this
            exact this
          have hpre := replaceAllF_prefix pat rep g as p2 hsafe hs2
          apply hcond
          simp only [Bool.and_eq_true, decide_eq_true_eq]
          refine ⟨fun he => by rw [he] at hp2; simp at hp2, ?_⟩
          refine List.isPrefixOf_iff_prefix.mpr ?_
          rw [hsplit]
          exact List.cons_prefix_cons.mpr ⟨rfl, hpre⟩

theorem replaceAllF_preserve (pat rep pq : List Char)
    (hp2 : 2 ≤ pq.length)
    (h1 : ¬ pq <:+: rep)
    (h2 : ∀ i, i < pq.length → 0 < i → ¬ (pq.take i <:+ rep))
    (h3 : ∀ j, j < pq.length → 1 ≤ j →
      ¬(pq.drop j <+: rep) ∧ ¬(rep <+: pq.drop j)) :
    ∀ (f : ℕ) (s : List Char),
      pq <:+: replaceAllF pat rep f s → pq <:+: s := by
  intro f
  induction f with
  | zero =>
    intro s hinf
    cases s with
    | nil => rw [replaceAllF_nil] at hinf; exact hinf
    | cons a as => exact hinf
  | succ g ih =>
    intro s hinf
    cases s with
    | nil => rw [replaceAllF_nil] at hinf; exact hinf
    | cons a as =>
      unfold replaceAllF at hinf
      split at hinf
      · rcases infix_append_cases _ _ _ hinf with
          hA | hA | ⟨p1, p2, hsplit, hp1, hpb, hs1, hs2⟩
        · exact absurd hA h1
        · exact (ih _ hA).trans (List.drop_suffix pat.length (a :: as)).isInfix
        · exfalso
          have e1 : p1 = pq.take p1.length := by rw [hsplit, List.take_left]
          have hlt : p1.length < pq.length := by
            rw [hsplit, List.length_append]
            have := List.length_pos.mpr hpb
            omega
          exact (h2 p1.length hlt (List.length_pos.mpr hp1)) (e1 ▸ hs1)
      · rcases infix_append_cases pq [a] _
            (show pq <:+: [a] ++ replaceAllF pat rep g as from hinf) with
          hA | hA | ⟨p1, p2, hsplit, hp1, hpb, hs1, hs2⟩
        · exfalso
          have := hA.length_le
          simp only [List.length_cons, List.length_nil] at this
          omega
        · exact (ih as hA).trans (List.suffix_cons a as).isInfix
        · have hp1a : p1 = [a] := by
            rcases hs1 with ⟨w, hw⟩
            cases w with
            | nil => simpa using hw
            | cons x xs =>
              have hlen := congrArg List.length hw
              simp only [List.length_append, List.length_cons,
                List.length_nil] at hlen
              have : p1 = [] := List.length_eq_zero.mp (by omega)
              exact absurd this hp1
          rw [hp1a] at hsplit
          have hsafe : ∀ q', q' <:+ p2 → q' ≠ [] →
              ¬(q' <+: rep) ∧ ¬(rep <+: q') := by
            intro q' hq' hne
            have hkd : q' = p2.drop (p2.length - q'.length) :=
              List.suffix_iff_eq_drop.mp hq'
            have e3 : q' = pq.drop ((p2.length - q'.length) + 1) := by
              rw [hsplit]
              show q' = List.drop ((p2.length - q'.length) + 1) (a :: p2)
              rw [List.drop_succ_cons]
              exact hkd
            have hle : q'.length ≤ p2.length := hq'.length_le
            have hqpos : 0 < q'.length := List.length_pos.mpr hne
            have hppos : 0 < p2.length := List.length_pos.mpr hpb
            have hjlt : (p2.length - q'.length) + 1 < pq.length := by
              rw [hsplit]
              simp only [List.cons_append, List.nil_append, List.length_cons]
              omega
            have := h3 _ hjlt (by omega)
            rw [← e3] at this
            exact this
          have hpre := replaceAllF_prefix pat rep g as p2 hsafe hs2
          have hfin : pq <+: a :: as := by
            rw [hsplit]
            exact List.cons_prefix_cons.mpr ⟨rfl, hpre⟩
          exact hfin.isInfix

theorem replaceAllF_eq_nil_iff (pat rep : List Char) (hrep : rep ≠ [])
    (f : ℕ) (s : List Char) : replaceAllF pat rep f s = [] ↔ s = [] := by
  constructor
  · intro h
    cases s with
    | nil => rfl
    | cons a as =>
      cases f with
      | zero => exact h
      | succ g =>
        unfold replaceAllF at h
        split at h
        · exact absurd (List.append_eq_nil.mp h).1 hrep
        · exact absurd h (List.cons_ne_nil _ _)
  · intro h
    rw [h, replaceAllF_nil]

theorem getLast?_of_suffix (t s : List Char) (h : t <:+ s) (hne : t ≠ []) :
    t.getLast? = s.getLast? := by
  rcases h with ⟨w, hw⟩
  rw [← hw, List.getLast?_append_of_ne_nil w hne]

theorem getLast?_mem (l : List Char) (a : Char) (h : l.getLast? = some a) :
    a ∈ l := by
  have h2 : l.reverse.head? = some a := by rw [List.head?_reverse]; exact h
  have := List.mem_of_mem_head? h2
  simpa using this

theorem noTrailWS_tail (c : Char) (cs : List Char) (hne : cs ≠ [])
    (h : noTrailWS (c :: cs)) : noTrailWS cs := by
  intro d hd
  apply h
  cases cs with
  | nil => exact absurd rfl hne
  | cons b bs => rw [List.getLast?_cons_cons]; exact hd

theorem noTrailWS_drop (s : List Char) (n : ℕ) (h : noTrailWS s) :
    noTrailWS (s.drop n) := by
  intro d hd
  apply h
  by_cases hne : s.drop n = []
  · rw [hne] at hd
    exact absurd hd (by simp)
  · rw [← getLast?_of_suffix _ s (List.drop_suffix n s) hne]
    exact hd

theorem replaceAllF_noLead (pat rep : List Char) (hrep : rep ≠ [])
    (hr : noLeadWS rep) (f : ℕ) (s : List Char) (hs : noLeadWS s) :
    noLeadWS (replaceAllF pat rep f s) := by
  cases f with
  | zero =>
    cases s with
    | nil =>
      intro c hc
      rw [replaceAllF_nil] at hc
      exact absurd hc (by simp)
    | cons a as => exact hs
  | succ g =>
    cases s with
    | nil =>
      intro c hc
      rw [replaceAllF_nil] at hc
      exact absurd hc (by simp)
    | cons a as =>
      unfold replaceAllF
      split
      · cases rep with
        | nil => exact absurd rfl hrep
        | cons r rs =>
          intro c hc
          exact hr c hc
      · intro c hc
        exact hs c hc

theorem replaceAllF_noTrail (pat rep : List Char) (hrep : rep ≠ [])
    (hr : noTrailWS rep) :
    ∀ (f : ℕ) (s : List Char), noTrailWS s →
      noTrailWS (replaceAllF pat rep f s) := by
  intro f
  induction f with
  | zero =>
    intro s hs
    cases s with
    | nil => rw [replaceAllF_nil]; exact hs
    | cons a as => exact hs
  | succ g ih =>
    intro s hs
    cases s with
    | nil => rw [replaceAllF_nil]; exact hs
    | cons a as =>
      unfold replaceAllF
      split
      · have hrec := ih (List.drop pat.length (a :: as))
          (noTrailWS_drop (a :: as) pat.length hs)
        by_cases hn : replaceAllF pat rep g (List.drop pat.length (a :: as)) = []
        · rw [hn, List.append_nil]
          exact hr
        · intro c hc
          rw [List.getLast?_append_of_ne_nil rep hn] at hc
          exact hrec c hc
      · by_cases hn : replaceAllF pat rep g as = []
        · rw [hn]
          have has : as = [] := (replaceAllF_eq_nil_iff pat rep hrep g as).mp hn
          subst has
          exact hs
        · intro c hc
          have has : as ≠ [] := fun h => hn (by rw [h, replaceAllF_nil])
          have hcs : noTrailWS as := noTrailWS_tail a as has hs
          rw [show a :: replaceAllF pat rep g as
                = [a] ++ replaceAllF pat rep g as from rfl,
            List.getLast?_append_of_ne_nil [a] hn] at hc
          exact ih as hcs c hc

theorem dropWhile_eq_self_of_head (l : List Char)
    (h : ∀ c, l.head? = some c → pyIsSpace c = false) :
    l.dropWhile pyIsSpace = l := by
  cases l with
  | nil => rfl
  | cons c cs =>
    rw [List.dropWhile_cons, h c rfl]
    simp

theorem head?_of_prefix (t s : List Char) (h : t <+: s) (hne : t ≠ []) :
    t.head? = s.head? := by
  rcases h with ⟨w, hw⟩
  cases t with
  | nil => exact absurd rfl hne
  | cons c cs => rw [← hw]; rfl

theorem dropTrailingWS_prefix (l : List Char) : dropTrailingWS l <+: l := by
  unfold dropTrailingWS
  have h : (l.reverse.dropWhile pyIsSpace) <:+ l.reverse :=
    List.dropWhile_suffix pyIsSpace
  have h2 := List.reverse_prefix.mpr h
  rwa [List.reverse_reverse] at h2

theorem pyStrip_noLead (s : List Char) : noLeadWS (pyStrip s) := by
  intro c hc
  have hne : pyStrip s ≠ [] := by
    intro h
    rw [h] at hc
    exact absurd hc (by simp)
  have hpre : pyStrip s <+: s.dropWhile pyIsSpace := dropTrailingWS_prefix _
  have hh : (s.dropWhile pyIsSpace).head? = some c := by
    rw [← head?_of_prefix _ _ hpre hne]
    exact hc
  have := List.head?_dropWhile_not pyIsSpace s
  rw [hh] at this
  simpa using this

theorem pyStrip_noTrail (s : List Char) : noTrailWS (pyStrip s) := by
  intro c hc
  unfold pyStrip dropTrailingWS at hc
  rw [List.getLast?_reverse] at hc
  have := List.head?_dropWhile_not pyIsSpace (s.dropWhile pyIsSpace).reverse
  rw [hc] at this
  simpa using this

theorem pyStrip_infix_self (s : List Char) : pyStrip s <:+: s := by
  have h1 : pyStrip s <+: s.dropWhile pyIsSpace := dropTrailingWS_prefix _
  have h2 : s.dropWhile pyIsSpace <:+ s := List.dropWhile_suffix pyIsSpace
  exact h1.isInfix.trans h2.isInfix

theorem pyStrip_id (t : List Char) (h1 : noLeadWS t) (h2 : noTrailWS t) :
    pyStrip t = t := by
  have e1 : t.dropWhile pyIsSpace = t := dropWhile_eq_self_of_head t h1
  have e2 : t.reverse.dropWhile pyIsSpace = t.reverse := by
    apply dropWhile_eq_self_of_head
    intro c hc
    rw [List.head?_reverse] at hc
    exact h2 c hc
  unfold pyStrip dropTrailingWS
  rw [e1, e2, List.reverse_reverse]

theorem collapsedB_cons_space (t : List Char)
    (hh : ∀ d, t.head? = some d → pyIsSpace d = false)
    (ht : collapsedB t = true) : collapsedB (' ' :: t) = true := by
  cases t with
  | nil => decide
  | cons d ds =>
    have hd := hh d rfl
    rw [show collapsedB (' ' :: d :: ds)
        = ((decide (' ' = ' ') && !pyIsSpace d) && collapsedB (d :: ds))
        from rfl, hd, ht]
    rfl

theorem collapsedB_cons_nonws (a : Char) (t : List Char)
    (ha : pyIsSpace a = false) (ht : collapsedB t = true) :
    collapsedB (a :: t) = true := by
  cases t with
  | nil =>
    show (if pyIsSpace a then ((decide (a = ' ') && true)
        && collapsedB ([] : List Char)) else collapsedB ([] : List Char)) = true
    rw [ha]
    rfl
  | cons d ds =>
    show (if pyIsSpace a then ((decide (a = ' ') && !pyIsSpace d)
        && collapsedB (d :: ds)) else collapsedB (d :: ds)) = true
    rw [ha, ht]
    simp

theorem collapsedB_cons_nonws_elim (a : Char) (as : List Char)
    (ha : pyIsSpace a = false) (h : collapsedB (a :: as) = true) :
    collapsedB as = true := by
  cases as with
  | nil => rfl
  | cons d ds =>
    rw [show collapsedB (a :: d :: ds)
        = (if pyIsSpace a then ((decide (a = ' ') && !pyIsSpace d)
            && collapsedB (d :: ds)) else collapsedB (d :: ds))
        from rfl, ha] at h
    simpa using h

theorem collapsedB_cons_ws_elim (a : Char) (as : List Char)
    (ha : pyIsSpace a = true) (h : collapsedB (a :: as) = true) :
    a = ' ' ∧ collapsedB as = true ∧
      (∀ d, as.head? = some d → pyIsSpace d = false) := by
  cases as with
  | nil =>
    rw [show collapsedB [a]
        = (if pyIsSpace a then ((decide (a = ' ') && true)
            && collapsedB ([] : List Char)) else collapsedB ([] : List Char))
        from rfl, ha] at h
    simp at h
    refine ⟨h.1, rfl, ?_⟩
    intro d hd
    exact absurd hd (by simp)
  | cons d ds =>
    rw [show collapsedB (a :: d :: ds)
        = (if pyIsSpace a then ((decide (a = ' ') && !pyIsSpace d)
            && collapsedB (d :: ds)) else collapsedB (d :: ds))
        from rfl, ha] at h
    simp at h
    refine ⟨h.1.1, h.2, ?_⟩
    intro e he
    have he2 : e = d := (Option.some.inj he).symm
    rw [he2]
    exact h.1.2

theorem collapseWS_eq_nil_iff (s : List Char) : collapseWS s = [] ↔ s = [] := by
  constructor
  · intro h
    cases s with
    | nil => rfl
    | cons a as =>
      rw [show collapseWS (a :: as)
          = if pyIsSpace a then ' ' :: collapseDrop as else a :: collapseWS as
          from rfl] at h
      split at h <;> exact absurd h (List.cons_ne_nil _ _)
  · intro h
    rw [h]
    rfl

theorem collapseDrop_eq_nil_ws :
    ∀ (s : List Char), collapseDrop s = [] → ∀ c ∈ s, pyIsSpace c = true := by
  intro s
  induction s with
  | nil =>
    intro _ c hc
    exact absurd hc (List.not_mem_nil c)
  | cons a as ih =>
    intro h c hc
    rw [show collapseDrop (a :: as)
        = if pyIsSpace a then collapseDrop as else a :: collapseWS as
        from rfl] at h
    split at h
    · next ha =>
      rcases List.mem_cons.mp hc with h2 | h2
      · rw [h2]; exact ha
      · exact ih h c h2
    · exact absurd h (List.cons_ne_nil _ _)

theorem collapse_mem (s : List Char) :
    (∀ c ∈ collapseWS s, c ∈ s ∨ c = ' ') ∧
    (∀ c ∈ collapseDrop s, c ∈ s ∨ c = ' ') := by
  induction s with
  | nil =>
    constructor
    · intro c hc
      rw [show collapseWS [] = [] from rfl] at hc
      exact absurd hc (List.not_mem_nil c)
    · intro c hc
      rw [show collapseDrop [] = [] from rfl] at hc
      exact absurd hc (List.not_mem_nil c)
  | cons a as ih =>
    constructor
    · intro c hc
      rw [show collapseWS (a :: as)
          = if pyIsSpace a then ' ' :: collapseDrop as else a :: collapseWS as
          from rfl] at hc
      split at hc
      · rcases List.mem_cons.mp hc with h | h
        · exact Or.inr h
        · rcases ih.2 c h with h2 | h2
          · exact Or.inl (List.mem_cons_of_mem a h2)
          · exact Or.inr h2
      · rcases List.mem_cons.mp hc with h | h
        · exact Or.inl (by rw [h]; exact List.mem_cons_self a as)
        · rcases ih.1 c h with h2 | h2
          · exact Or.inl (List.mem_cons_of_mem a h2)
          · exact Or.inr h2
    · intro c hc
      rw [show collapseDrop (a :: as)
          = if pyIsSpace a then collapseDrop as else a :: collapseWS as
          from rfl] at hc
      split at hc
      · rcases ih.2 c hc with h2 | h2
        · exact Or.inl (List.mem_cons_of_mem a h2)
        · exact Or.inr h2
      · rcases List.mem_cons.mp hc with h | h
        · exact Or.inl (by rw [h]; exact List.mem_cons_self a as)
        · rcases ih.1 c h with h2 | h2
          · exact Or.inl (List.mem_cons_of_mem a h2)
          · exact Or.inr h2

theorem collapse_collapsedB (s : List Char) :
    collapsedB (collapseWS s) = true ∧
    (collapsedB (collapseDrop s) = true ∧
      ∀ c, (collapseDrop s).head? = some c → pyIsSpace c = false) := by
  induction s with
  | nil =>
    refine ⟨rfl, rfl, ?_⟩
    intro c hc
    exact absurd hc (by rw [show collapseDrop [] = [] from rfl]; simp)
  | cons a as ih =>
    by_cases ha : pyIsSpace a = true
    · constructor
      · rw [show collapseWS (a :: as)
            = if pyIsSpace a then ' ' :: collapseDrop as else a :: collapseWS as
            from rfl, if_pos ha]
        exact collapsedB_cons_space _ ih.2.2 ih.2.1
      · rw [show collapseDrop (a :: as)
            = if pyIsSpace a then collapseDrop as else a :: collapseWS as
            from rfl, if_pos ha]
        exact ih.2
    · have ha' : pyIsSpace a = false := by simpa using ha
      constructor
      · rw [show collapseWS (a :: as)
            = if pyIsSpace a then ' ' :: collapseDrop as else a :: collapseWS as
            from rfl, if_neg ha]
        exact collapsedB_cons_nonws a _ ha' ih.1
      · rw [show collapseDrop (a :: as)
            = if pyIsSpace a then collapseDrop as else a :: collapseWS as
            from rfl, if_neg ha]
        refine ⟨collapsedB_cons_nonws a _ ha' ih.1, ?_⟩
        intro c hc
        have he := Option.some.inj hc
        rw [← he]
        exact ha'

theorem collapse_id (t : List Char) :
    (collapsedB t = true → collapseWS t = t) ∧
    (collapsedB t = true →
      (∀ c, t.head? = some c → pyIsSpace c = false) → collapseDrop t = t) := by
  induction t with
  | nil => exact ⟨fun _ => rfl, fun _ _ => rfl⟩
  | cons a as ih =>
    constructor
    · intro hB
      by_cases ha : pyIsSpace a = true
      · have hparts := collapsedB_cons_ws_elim a as ha hB
        rw [show collapseWS (a :: as)
            = if pyIsSpace a then ' ' :: collapseDrop as else a :: collapseWS as
            from rfl, if_pos ha, hparts.1,
          ih.2 hparts.2.1 hparts.2.2]
      · have ha' : pyIsSpace a = false := by simpa using ha
        rw [show collapseWS (a :: as)
            = if pyIsSpace a then ' ' :: collapseDrop as else a :: collapseWS as
            from rfl, if_neg ha,
          ih.1 (collapsedB_cons_nonws_elim a as ha' hB)]
    · intro hB hh
      have ha : pyIsSpace a = false := hh a rfl
      rw [show collapseDrop (a :: as)
          = if pyIsSpace a then collapseDrop as else a :: collapseWS as
          from rfl, if_neg (by rw [ha]; simp),
        ih.1 (collapsedB_cons_nonws_elim a as ha hB)]

theorem collapse_prefix_pullback :
    ∀ (s q : List Char), wsFree q → q <+: collapseWS s → q <+: s := by
  intro s
  induction s with
  | nil =>
    intro q hq hpre
    rw [show collapseWS [] = [] from rfl] at hpre
    exact hpre
  | cons a as ih =>
    intro q hq hpre
    by_cases ha : pyIsSpace a = true
    · rw [show collapseWS (a :: as)
          = if pyIsSpace a then ' ' :: collapseDrop as else a :: collapseWS as
          from rfl, if_pos ha] at hpre
      cases q with
      | nil => exact List.nil_prefix
      | cons b bs =>
        have hb : b = ' ' := (List.cons_prefix_cons.mp hpre).1
        have hws := hq b (List.mem_cons_self b bs)
        rw [hb] at hws
        exact absurd hws (by decide)
    · rw [show collapseWS (a :: as)
          = if pyIsSpace a then ' ' :: collapseDrop as else a :: collapseWS as
          from rfl, if_neg ha] at hpre
      cases q with
      | nil => exact List.nil_prefix
      | cons b bs =>
        rcases List.cons_prefix_cons.mp hpre with ⟨hb, hbs⟩
        rw [hb]
        exact List.cons_prefix_cons.mpr
          ⟨rfl, ih bs (fun c hc => hq c (List.mem_cons_of_mem b hc)) hbs⟩

theorem collapse_infix_pullback :
    ∀ (s p : List Char), wsFree p → p ≠ [] →
      ((p <:+: collapseWS s → p <:+: s) ∧
        (p <:+: collapseDrop s → p <:+: s)) := by
  intro s
  induction s with
  | nil =>
    intro p hp hne
    constructor
    · intro h
      rw [show collapseWS [] = [] from rfl] at h
      exact h
    · intro h
      rw [show collapseDrop [] = [] from rfl] at h
      exact h
  | cons a as ih =>
    intro p hp hne
    by_cases ha : pyIsSpace a = true
    · constructor
      · intro h
        rw [show collapseWS (a :: as)
            = if pyIsSpace a then ' ' :: collapseDrop as else a :: collapseWS as
            from rfl, if_pos ha] at h
        rcases List.infix_cons_iff.mp h with h2 | h2
        · cases p with
          | nil => exact absurd rfl hne
          | cons b bs =>
            have hb : b = ' ' := (List.cons_prefix_cons.mp h2).1
            have hws := hp b (List.mem_cons_self b bs)
            rw [hb] at hws
            exact absurd hws (by decide)
        · exact ((ih p hp hne).2 h2).trans (List.suffix_cons a as).isInfix
      · intro h
        rw [show collapseDrop (a :: as)
            = if pyIsSpace a then collapseDrop as else a :: collapseWS as
            from rfl, if_pos ha] at h
        exact ((ih p hp hne).2 h).trans (List.suffix_cons a as).isInfix
    · have key : p <:+: a :: collapseWS as → p <:+: a :: as := by
        intro h
        rcases List.infix_cons_iff.mp h with h2 | h2
        · cases p with
          | nil => exact absurd rfl hne
          | cons b bs =>
            rcases List.cons_prefix_cons.mp h2 with ⟨hb, hbs⟩
            have hbs2 : bs <+: as := collapse_prefix_pullback as bs
              (fun c hc => hp c (List.mem_cons_of_mem b hc)) hbs
            exact (List.cons_prefix_cons.mpr ⟨hb, hbs2⟩).isInfix
        · exact ((ih p hp hne).1 h2).trans (List.suffix_cons a as).isInfix
      constructor
      · intro h
        rw [show collapseWS (a :: as)
            = if pyIsSpace a then ' ' :: collapseDrop as else a :: collapseWS as
            from rfl, if_neg ha] at h
        exact key h
      · intro h
        rw [show collapseDrop (a :: as)
            = if pyIsSpace a then collapseDrop as else a :: collapseWS as
            from rfl, if_neg ha] at h
        exact key h

theorem collapse_noTrail :
    ∀ (s : List Char), noTrailWS s →
      (noTrailWS (collapseWS s) ∧ noTrailWS (collapseDrop s)) := by
  intro s
  induction s with
  | nil => intro h; exact ⟨h, h⟩
  | cons a as ih =>
    intro hs
    by_cases ha : pyIsSpace a = true
    · cases as with
      | nil =>
        exfalso
        have hlast := hs a rfl
        rw [hlast] at ha
        exact absurd ha (by decide)
      | cons b bs =>
        have hbs : noTrailWS (b :: bs) :=
          noTrailWS_tail a (b :: bs) (List.cons_ne_nil b bs) hs
        have key : noTrailWS (' ' :: collapseDrop (b :: bs)) := by
          by_cases hnil : collapseDrop (b :: bs) = []
          · exfalso
            cases hgl : (b :: bs).getLast? with
            | none =>
              rw [List.getLast?_eq_none_iff] at hgl
              exact absurd hgl (List.cons_ne_nil b bs)
            | some e =>
              have hmem := getLast?_mem _ _ hgl
              have hws := collapseDrop_eq_nil_ws (b :: bs) hnil e hmem
              rw [hbs e hgl] at hws
              exact absurd hws (by decide)
          · intro c hc
            rw [show ' ' :: collapseDrop (b :: bs)
                = [' '] ++ collapseDrop (b :: bs) from rfl,
              List.getLast?_append_of_ne_nil [' '] hnil] at hc
            exact (ih hbs).2 c hc
        constructor
        · rw [show collapseWS (a :: b :: bs)
              = if pyIsSpace a then ' ' :: collapseDrop (b :: bs)
                else a :: collapseWS (b :: bs) from rfl, if_pos ha]
          exact key
        · rw [show collapseDrop (a :: b :: bs)
              = if pyIsSpace a then collapseDrop (b :: bs)
                else a :: collapseWS (b :: bs) from rfl, if_pos ha]
          exact (ih hbs).2
    · have ha' : pyIsSpace a = false := by simpa using ha
      have key : noTrailWS (a :: collapseWS as) := by
        cases as with
        | nil =>
          intro c hc
          have he := Option.some.inj hc
          rw [← he]
          exact ha'
        | cons b bs =>
          have hbs : noTrailWS (b :: bs) :=
            noTrailWS_tail a (b :: bs) (List.cons_ne_nil b bs) hs
          have hnil : collapseWS (b :: bs) ≠ [] := by
            intro h
            exact absurd ((collapseWS_eq_nil_iff (b :: bs)).mp h)
              (List.cons_ne_nil b bs)
          intro c hc
          rw [show a :: collapseWS (b :: bs)
              = [a] ++ collapseWS (b :: bs) from rfl,
            List.getLast?_append_of_ne_nil [a] hnil] at hc
          exact (ih hbs).1 c hc
      constructor
      · rw [show collapseWS (a :: as)
            = if pyIsSpace a then ' ' :: collapseDrop as else a :: collapseWS as
            from rfl, if_neg ha]
        exact key
      · rw [show collapseDrop (a :: as)
            = if pyIsSpace a then collapseDrop as else a :: collapseWS as
            from rfl, if_neg ha]
        exact key

theorem collapse_noLead (s : List Char) (h : noLeadWS s) :
    noLeadWS (collapseWS s) := by
  cases s with
  | nil => exact h
  | cons a as =>
    have ha : pyIsSpace a = false := h a rfl
    rw [show collapseWS (a :: as)
        = if pyIsSpace a then ' ' :: collapseDrop as else a :: collapseWS as
        from rfl, if_neg (by rw [ha]; simp)]
    intro c hc
    have he := Option.some.inj hc
    rw [← he]
    exact ha

theorem noLeadWS_of_head (l : List Char) (d : Char) (hl : l.head? = some d)
    (hd : pyIsSpace d = false) : noLeadWS l := by
  intro c hc
  rw [hl] at hc
  rw [← Option.some.inj hc]
  exact hd

theorem noTrailWS_of_getLast (l : List Char) (d : Char)
    (hl : l.getLast? = some d) (hd : pyIsSpace d = false) : noTrailWS l := by
  intro c hc
  rw [hl] at hc
  rw [← Option.some.inj hc]
  exact hd

theorem canonKey_fix (s : List Char) : allFixed (canonKey s) := by
  have hfix2 : allFixed "cm^2".toList := by unfold allFixed; decide
  have hfixm : allFixed "mA/cm^2".toList := by unfold allFixed; decide
  show allFixed
    (collapseWS
      (replaceAll "mA/cm²".toList "mA/cm^2".toList
      (replaceAll "mA/cm2".toList "mA/cm^2".toList
      (replaceAll "cm2".toList "cm^2".toList
      (replaceAll "cm**2".toList "cm^2".toList
      (replaceAll "cm�".toList "cm^2".toList
      (replaceAll "cm²".toList "cm^2".toList
      (replaceAll "cmÂ²".toList "cm^2".toList
      (pyStrip (replaceAll ['\u00A0'] [' '] (List.map charNFKC s)))))))))))
  intro c hc
  rcases ((collapse_mem _).1 c hc).symm with h | h9
  · rw [h]; decide
  rcases (replaceAllF_mem _ _ _ _ c h9).symm with hr | h8
  · exact hfixm c hr
  rcases (replaceAllF_mem _ _ _ _ c h8).symm with hr | h7
  · exact hfixm c hr
  rcases (replaceAllF_mem _ _ _ _ c h7).symm with hr | h6
  · exact hfix2 c hr
  rcases (replaceAllF_mem _ _ _ _ c h6).symm with hr | h5
  · exact hfix2 c hr
  rcases (replaceAllF_mem _ _ _ _ c h5).symm with hr | h4
  · exact hfix2 c hr
  rcases (replaceAllF_mem _ _ _ _ c h4).symm with hr | h3
  · exact hfix2 c hr
  rcases (replaceAllF_mem _ _ _ _ c h3).symm with hr | h2
  · exact hfix2 c hr
  have h1 := (pyStrip_infix_self _).subset h2
  rcases (replaceAllF_mem _ _ _ _ c h1).symm with hr | h0
  · simp at hr
    rw [hr]
    decide
  exact allFixed_map s c h0

theorem canonKey_noLead (s : List Char) : noLeadWS (canonKey s) := by
  show noLeadWS
    (collapseWS
      (replaceAll "mA/cm²".toList "mA/cm^2".toList
      (replaceAll "mA/cm2".toList "mA/cm^2".toList
      (replaceAll "cm2".toList "cm^2".toList
      (replaceAll "cm**2".toList "cm^2".toList
      (replaceAll "cm�".toList "cm^2".toList
      (replaceAll "cm²".toList "cm^2".toList
      (replaceAll "cmÂ²".toList "cm^2".toList
      (pyStrip (replaceAll ['\u00A0'] [' '] (List.map charNFKC s)))))))))))
  have h2 : noLeadWS (pyStrip (replaceAll ['\u00A0'] [' '] (List.map charNFKC s))) := pyStrip_noLead _
  have h3 : noLeadWS (replaceAll "cmÂ²".toList "cm^2".toList
      (pyStrip (replaceAll ['\u00A0'] [' '] (List.map charNFKC s)))) :=
    replaceAllF_noLead _ _ (by decide)
      (noLeadWS_of_head _ 'c' (by decide) (by decide)) _ _ h2
  have h4 : noLeadWS (replaceAll "cm²".toList "cm^2".toList
      (replaceAll "cmÂ²".toList "cm^2".toList
      (pyStrip (replaceAll ['\u00A0'] [' '] (List.map charNFKC s))))) :=
    replaceAllF_noLead _ _ (by decide)
      (noLeadWS_of_head _ 'c' (by decide) (by decide)) _ _ h3
  have h5 : noLeadWS (replaceAll "cm�".toList "cm^2".toList
      (replaceAll "cm²".toList "cm^2".toList
      (replaceAll "cmÂ²".toList "cm^2".toList
      (pyStrip (replaceAll ['\u00A0'] [' '] (List.map charNFKC s)))))) :=
    replaceAllF_noLead _ _ (by decide)
      (noLeadWS_of_head _ 'c' (by decide) (by decide)) _ _ h4
  have h6 : noLeadWS (replaceAll "cm**2".toList "cm^2".toList
      (replaceAll "cm�".toList "cm^2".toList
      (replaceAll "cm²".toList "cm^2".toList
      (replaceAll "cmÂ²".toList "cm^2".toList
      (pyStrip (replaceAll ['\u00A0'] [' '] (List.map charNFKC s))))))) :=
    replaceAllF_noLead _ _ (by decide)
      (noLeadWS_of_head _ 'c' (by decide) (by decide)) _ _ h5
  have h7 : noLeadWS (replaceAll "cm2".toList "cm^2".toList
      (replaceAll "cm**2".toList "cm^2".toList
      (replaceAll "cm�".toList "cm^2".toList
      (replaceAll "cm²".toList "cm^2".toList
      (replaceAll "cmÂ²".toList "cm^2".toList
      (pyStrip (replaceAll ['\u00A0'] [' '] (List.map charNFKC s)))))))) :=
    replaceAllF_noLead _ _ (by decide)
      (noLeadWS_of_head _ 'c' (by decide) (by decide)) _ _ h6
  have h8 : noLeadWS (replaceAll "mA/cm2".toList "mA/cm^2".toList
      (replaceAll "cm2".toList "cm^2".toList
      (replaceAll "cm**2".toList "cm^2".toList
      (replaceAll "cm�".toList "cm^2".toList
      (replaceAll "cm²".toList "cm^2".toList
      (replaceAll "cmÂ²".toList "cm^2".toList
      (pyStrip (replaceAll ['\u00A0'] [' '] (List.map charNFKC s))))))))) :=
    replaceAllF_noLead _ _ (by decide)
      (noLeadWS_of_head _ 'm' (by decide) (by decide)) _ _ h7
  have h9 : noLeadWS (replaceAll "mA/cm²".toList "mA/cm^2".toList
      (replaceAll "mA/cm2".toList "mA/cm^2".toList
      (replaceAll "cm2".toList "cm^2".toList
      (replaceAll "cm**2".toList "cm^2".toList
      (replaceAll "cm�".toList "cm^2".toList
      (replaceAll "cm²".toList "cm^2".toList
      (replaceAll "cmÂ²".toList "cm^2".toList
      (pyStrip (replaceAll ['\u00A0'] [' '] (List.map charNFKC s)))))))))) :=
    replaceAllF_noLead _ _ (by decide)
      (noLeadWS_of_head _ 'm' (by decide) (by decide)) _ _ h8
  exact collapse_noLead _ h9

theorem canonKey_noTrail (s : List Char) : noTrailWS (canonKey s) := by
  show noTrailWS
    (collapseWS
      (replaceAll "mA/cm²".toList "mA/cm^2".toList
      (replaceAll "mA/cm2".toList "mA/cm^2".toList
      (replaceAll "cm2".toList "cm^2".toList
      (replaceAll "cm**2".toList "cm^2".toList
      (replaceAll "cm�".toList "cm^2".toList
      (replaceAll "cm²".toList "cm^2".toList
      (replaceAll "cmÂ²".toList "cm^2".toList
      (pyStrip (replaceAll ['\u00A0'] [' '] (List.map charNFKC s)))))))))))
  have h2 : noTrailWS (pyStrip (replaceAll ['\u00A0'] [' '] (List.map charNFKC s))) := pyStrip_noTrail _
  have h3 : noTrailWS (replaceAll "cmÂ²".toList "cm^2".toList
      (pyStrip (replaceAll ['\u00A0'] [' '] (List.map charNFKC s)))) :=
    replaceAllF_noTrail _ _ (by decide)
      (noTrailWS_of_getLast _ '2' (by decide) (by decide)) _ _ h2
  have h4 : noTrailWS (replaceAll "cm²".toList "cm^2".toList
      (replaceAll "cmÂ²".toList "cm^2".toList
      (pyStrip (replaceAll ['\u00A0'] [' '] (List.map charNFKC s))))) :=
    replaceAllF_noTrail _ _ (by decide)
      (noTrailWS_of_getLast _ '2' (by decide) (by decide)) _ _ h3
  have h5 : noTrailWS (replaceAll "cm�".toList "cm^2".toList
      (replaceAll "cm²".toList "cm^2".toList
      (replaceAll "cmÂ²".toList "cm^2".toList
      (pyStrip (replaceAll ['\u00A0'] [' '] (List.map charNFKC s)))))) :=
    replaceAllF_noTrail _ _ (by decide)
      (noTrailWS_of_getLast _ '2' (by decide) (by decide)) _ _ h4
  have h6 : noTrailWS (replaceAll "cm**2".toList "cm^2".toList
      (replaceAll "cm�".toList "cm^2".toList
      (replaceAll "cm²".toList "cm^2".toList
      (replaceAll "cmÂ²".toList "cm^2".toList
      (pyStrip (replaceAll ['\u00A0'] [' '] (List.map charNFKC s))))))) :=
    replaceAllF_noTrail _ _ (by decide)
      (noTrailWS_of_getLast _ '2' (by decide) (by decide)) _ _ h5
  have h7 : noTrailWS (replaceAll "cm2".toList "cm^2".toList
      (replaceAll "cm**2".toList "cm^2".toList
      (replaceAll "cm�".toList "cm^2".toList
      (replaceAll "cm²".toList "cm^2".toList
      (replaceAll "cmÂ²".toList "cm^2".toList
      (pyStrip (replaceAll ['\u00A0'] [' '] (List.map charNFKC s)))))))) :=
    replaceAllF_noTrail _ _ (by decide)
      (noTrailWS_of_getLast _ '2' (by decide) (by decide)) _ _ h6
  have h8 : noTrailWS (replaceAll "mA/cm2".toList "mA/cm^2".toList
      (replaceAll "cm2".toList "cm^2".toList
      (replaceAll "cm**2".toList "cm^2".toList
      (replaceAll "cm�".toList "cm^2".toList
      (replaceAll "cm²".toList "cm^2".toList
      (replaceAll "cmÂ²".toList "cm^2".toList
      (pyStrip (replaceAll ['\u00A0'] [' '] (List.map charNFKC s))))))))) :=
    replaceAllF_noTrail _ _ (by decide)
      (noTrailWS_of_getLast _ '2' (by decide) (by decide)) _ _ h7
  have h9 : noTrailWS (replaceAll "mA/cm²".toList "mA/cm^2".toList
      (replaceAll "mA/cm2".toList "mA/cm^2".toList
      (replaceAll "cm2".toList "cm^2".toList
      (replaceAll "cm**2".toList "cm^2".toList
      (replaceAll "cm�".toList "cm^2".toList
      (replaceAll "cm²".toList "cm^2".toList
      (replaceAll "cmÂ²".toList "cm^2".toList
      (pyStrip (replaceAll ['\u00A0'] [' '] (List.map charNFKC s)))))))))) :=
    replaceAllF_noTrail _ _ (by decide)
      (noTrailWS_of_getLast _ '2' (by decide) (by decide)) _ _ h8
  exact (collapse_noTrail _ h9).1

theorem canonKey_collapsedB (s : List Char) : collapsedB (canonKey s) = true := by
  show collapsedB
    (collapseWS
      (replaceAll "mA/cm²".toList "mA/cm^2".toList
      (replaceAll "mA/cm2".toList "mA/cm^2".toList
      (replaceAll "cm2".toList "cm^2".toList
      (replaceAll "cm**2".toList "cm^2".toList
      (replaceAll "cm�".toList "cm^2".toList
      (replaceAll "cm²".toList "cm^2".toList
      (replaceAll "cmÂ²".toList "cm^2".toList
      (pyStrip (replaceAll ['\u00A0'] [' '] (List.map charNFKC s))))))))))) = true
  exact (collapse_collapsedB _).1

theorem canonKey_no5 (s : List Char) :
    ¬ "cm�".toList <:+: canonKey s := by
  show ¬ "cm�".toList <:+:
    (collapseWS
      (replaceAll "mA/cm²".toList "mA/cm^2".toList
      (replaceAll "mA/cm2".toList "mA/cm^2".toList
      (replaceAll "cm2".toList "cm^2".toList
      (replaceAll "cm**2".toList "cm^2".toList
      (replaceAll "cm�".toList "cm^2".toList
      (replaceAll "cm²".toList "cm^2".toList
      (replaceAll "cmÂ²".toList "cm^2".toList
      (pyStrip (replaceAll ['\u00A0'] [' '] (List.map charNFKC s)))))))))))
  intro h
  have h9 := (collapse_infix_pullback _ "cm�".toList
    (by unfold wsFree; decide) (by decide)).1 h
  have h8 := replaceAllF_preserve "mA/cm²".toList "mA/cm^2".toList
    "cm�".toList (by decide) (by decide) (by decide) (by decide) _ _ h9
  have h7 := replaceAllF_preserve "mA/cm2".toList "mA/cm^2".toList
    "cm�".toList (by decide) (by decide) (by decide) (by decide) _ _ h8
  have h6 := replaceAllF_preserve "cm2".toList "cm^2".toList
    "cm�".toList (by decide) (by decide) (by decide) (by decide) _ _ h7
  have h5 := replaceAllF_preserve "cm**2".toList "cm^2".toList
    "cm�".toList (by decide) (by decide) (by decide) (by decide) _ _ h6
  exact replaceAllF_no_pat "cm�".toList "cm^2".toList
    (by decide) (by decide) (by decide) (by decide) (by decide)
    _ _ (le_refl _) h5

theorem canonKey_no6 (s : List Char) :
    ¬ "cm**2".toList <:+: canonKey s := by
  show ¬ "cm**2".toList <:+:
    (collapseWS
      (replaceAll "mA/cm²".toList "mA/cm^2".toList
      (replaceAll "mA/cm2".toList "mA/cm^2".toList
      (replaceAll "cm2".toList "cm^2".toList
      (replaceAll "cm**2".toList "cm^2".toList
      (replaceAll "cm�".toList "cm^2".toList
      (replaceAll "cm²".toList "cm^2".toList
      (replaceAll "cmÂ²".toList "cm^2".toList
      (pyStrip (replaceAll ['\u00A0'] [' '] (List.map charNFKC s)))))))))))
  intro h
  have h9 := (collapse_infix_pullback _ "cm**2".toList
    (by unfold wsFree; decide) (by decide)).1 h
  have h8 := replaceAllF_preserve "mA/cm²".toList "mA/cm^2".toList
    "cm**2".toList (by decide) (by decide) (by decide) (by decide) _ _ h9
  have h7 := replaceAllF_preserve "mA/cm2".toList "mA/cm^2".toList
    "cm**2".toList (by decide) (by decide) (by decide) (by decide) _ _ h8
  have h6 := replaceAllF_preserve "cm2".toList "cm^2".toList
    "cm**2".toList (by decide) (by decide) (by decide) (by decide) _ _ h7
  exact replaceAllF_no_pat "cm**2".toList "cm^2".toList
    (by decide) (by decide) (by decide) (by decide) (by decide)
    _ _ (le_refl _) h6

theorem canonKey_no7 (s : List Char) :
    ¬ "cm2".toList <:+: canonKey s := by
  show ¬ "cm2".toList <:+:
    (collapseWS
      (replaceAll "mA/cm²".toList "mA/cm^2".toList
      (replaceAll "mA/cm2".toList "mA/cm^2".toList
      (replaceAll "cm2".toList "cm^2".toList
      (replaceAll "cm**2".toList "cm^2".toList
      (replaceAll "cm�".toList "cm^2".toList
      (replaceAll "cm²".toList "cm^2".toList
      (replaceAll "cmÂ²".toList "cm^2".toList
      (pyStrip (replaceAll ['\u00A0'] [' '] (List.map charNFKC s)))))))))))
  intro h
  have h9 := (collapse_infix_pullback _ "cm2".toList
    (by unfold wsFree; decide) (by decide)).1 h
  have h8 := replaceAllF_preserve "mA/cm²".toList "mA/cm^2".toList
    "cm2".toList (by decide) (by decide) (by decide) (by decide) _ _ h9
  have h7 := replaceAllF_preserve "mA/cm2".toList "mA/cm^2".toList
    "cm2".toList (by decide) (by decide) (by decide) (by decide) _ _ h8
  exact replaceAllF_no_pat "cm2".toList "cm^2".toList
    (by decide) (by decide) (by decide) (by decide) (by decide)
    _ _ (le_refl _) h7

theorem canonKey_id_of (t : List Char) (hfix : allFixed t)
    (hlead : noLeadWS t) (htrail : noTrailWS t)
    (hcB : collapsedB t = true)
    (h5 : ¬ "cm�".toList <:+: t)
    (h6 : ¬ "cm**2".toList <:+: t)
    (h7 : ¬ "cm2".toList <:+: t) :
    canonKey t = t := by
  have hs2 : '²' ∉ t := not_mem_sup2_of_allFixed t hfix
  have e0 : List.map charNFKC t = t := map_of_allFixed t hfix
  have e1 : replaceAll [' '] [' '] t = t :=
    replaceAllF_id _ _ _ t (fun h =>
      not_mem_nbsp_of_allFixed t hfix (h.subset (List.mem_singleton_self _)))
  have e2 : pyStrip t = t := pyStrip_id t hlead htrail
  have e3 : replaceAll "cmÂ²".toList "cm^2".toList t = t :=
    replaceAllF_id _ _ _ t (fun h => hs2 (h.subset (by decide)))
  have e4 : replaceAll "cm²".toList "cm^2".toList t = t :=
    replaceAllF_id _ _ _ t (fun h => hs2 (h.subset (by decide)))
  have e5 : replaceAll "cm�".toList "cm^2".toList t = t :=
    replaceAllF_id _ _ _ t h5
  have e6 : replaceAll "cm**2".toList "cm^2".toList t = t :=
    replaceAllF_id _ _ _ t h6
  have e7 : replaceAll "cm2".toList "cm^2".toList t = t :=
    replaceAllF_id _ _ _ t h7
  have e8 : replaceAll "mA/cm2".toList "mA/cm^2".toList t = t :=
    replaceAllF_id _ _ _ t (fun h =>
      h7 ((show "cm2".toList <:+: "mA/cm2".toList by decide).trans h))
  have e9 : replaceAll "mA/cm²".toList "mA/cm^2".toList t = t :=
    replaceAllF_id _ _ _ t (fun h => hs2 (h.subset (by decide)))
  have ec : collapseWS t = t := (collapse_id t).1 hcB
  show collapseWS
    (replaceAll "mA/cm²".toList "mA/cm^2".toList
      (replaceAll "mA/cm2".toList "mA/cm^2".toList
        (replaceAll "cm2".toList "cm^2".toList
          (replaceAll "cm**2".toList "cm^2".toList
            (replaceAll "cm�".toList "cm^2".toList
              (replaceAll "cm²".toList "cm^2".toList
                (replaceAll "cmÂ²".toList "cm^2".toList
                  (pyStrip
                    (replaceAll [' '] [' ']
                      (List.map charNFKC t)))))))))) = t
  rw [e0, e1, e2, e3, e4, e5, e6, e7, e8, e9, ec]

/-- C9: `_canon_key` is idempotent — for every input string `s`,
`_canon_key(_canon_key(s)) == _canon_key(s)`. (`canonKey` is a total Lean
function on `List Char`, mirroring that the Python canonicalizer accepts any
string and always returns a string with no error cases.) -/
theorem c9_theorem (s : List Char) : canonKey (canonKey s) = canonKey s :=
  canonKey_id_of (canonKey s) (canonKey_fix s) (canonKey_noLead s)
    (canonKey_noTrail s) (canonKey_collapsedB s) (canonKey_no5 s)
    (canonKey_no6 s) (canonKey_no7 s)

end LuQY

